import Mathlib

/-!
Shallow embedding of the chess engine in `src/Chess/chess.py` (classes
`Piece`, `Square`, `Move`, `Position`, `ZobristHasher`, `GameHeaderBag`),
together with theorems settling the frozen claims about it.

Squares are embedded as their 0x88 index (`Square.x88` in the source); the
en-passant file letter `"a"`..`"h"` is embedded as its index 0..7
(`ord(file) - ord("a")`, the conversion the source itself performs); the
castling-rights string `self.__castling` is embedded as four booleans — the
source maintains that string in the canonical order "KQkq" (it is only ever
rebuilt by `set_castling_right`, which walks `["K","Q","k","q"]`), so the
string is exactly determined by the four membership booleans.
-/

set_option maxHeartbeats 4000000
set_option maxRecDepth 4096

namespace Chess

/-- Piece color, `"w"` / `"b"` in the source. -/
inductive Col where
  | w
  | b
deriving DecidableEq, Repr

/-- `opposite_color` restricted to the short color names used internally. -/
def Col.opp : Col → Col
  | .w => .b
  | .b => .w

/-- Piece type letters `"p"`, `"n"`, `"b"`, `"r"`, `"q"`, `"k"`. -/
inductive PT where
  | p
  | n
  | b
  | r
  | q
  | k
deriving DecidableEq, Repr

/-- A chess piece: class `Piece`, identified by `(color, type)` (equality in
the source is by FEN symbol, which is the same identification). -/
structure Piece where
  color : Col
  ptype : PT
deriving DecidableEq, Repr

/-- `Piece.symbol`: the FEN symbol (uppercase = white). -/
def Piece.symbol : Piece → Char
  | ⟨.w, .p⟩ => 'P'
  | ⟨.w, .n⟩ => 'N'
  | ⟨.w, .b⟩ => 'B'
  | ⟨.w, .r⟩ => 'R'
  | ⟨.w, .q⟩ => 'Q'
  | ⟨.w, .k⟩ => 'K'
  | ⟨.b, .p⟩ => 'p'
  | ⟨.b, .n⟩ => 'n'
  | ⟨.b, .b⟩ => 'b'
  | ⟨.b, .r⟩ => 'r'
  | ⟨.b, .q⟩ => 'q'
  | ⟨.b, .k⟩ => 'k'

/-- Constructor `Piece(symbol)`: `None` models the `ValueError` branch. -/
def pieceFromSymbol : Char → Option Piece
  | 'P' => some ⟨.w, .p⟩
  | 'N' => some ⟨.w, .n⟩
  | 'B' => some ⟨.w, .b⟩
  | 'R' => some ⟨.w, .r⟩
  | 'Q' => some ⟨.w, .q⟩
  | 'K' => some ⟨.w, .k⟩
  | 'p' => some ⟨.b, .p⟩
  | 'n' => some ⟨.b, .n⟩
  | 'b' => some ⟨.b, .b⟩
  | 'r' => some ⟨.b, .r⟩
  | 'q' => some ⟨.b, .q⟩
  | 'k' => some ⟨.b, .k⟩
  | _ => none

/-- `Square.x` (file coordinate 0..7) recovered from the 0x88 index,
`"abcdefgh"[x88 & 7]` in `Square.from_x88`. -/
def fileOf (i : Nat) : Nat := i &&& 7

/-- `Square.rank` (1..8) recovered from the 0x88 index,
`"87654321"[x88 >> 4]` in `Square.from_x88`. -/
def rankOf (i : Nat) : Nat := 8 - (i >>> 4)

/-- `Square.y` (rank coordinate 0..7): `rank - 1`. -/
def yOf (i : Nat) : Nat := 7 - (i >>> 4)

/-- `Square.from_x_and_y(x, y).x88 = x + 16 * (7 - y)`. -/
def x88OfXY (x y : Nat) : Nat := x + 16 * (7 - y)

/-- `Square.from_rank_and_file(rank, file).x88` with the file embedded as
its 0..7 index: `x + 16 * (7 - (rank - 1)) = x + 16 * (8 - rank)`. -/
def x88OfRankFile (rank f : Nat) : Nat := f + 16 * (8 - rank)

/-- `Square.is_dark`: the source's literal formula `(x - y % 2) == 0`
(Python precedence: `x - (y % 2)`), over the mathematical integers as in
Python. -/
def isDark (i : Nat) : Bool := ((fileOf i : Int) - (yOf i : Int) % 2) == 0

/-- `Square.is_light` = `not is_dark`. -/
def isLight (i : Nat) : Bool := ! isDark i

/-- Class `Move`: source and target as 0x88 indices plus optional promotion
type. Source equality is by the coordinate (UCI) string, which for on-board
squares is the same as structural equality of this record. -/
structure Move where
  src : Nat
  tgt : Nat
  promo : Option PT
deriving DecidableEq, Repr

/-- The four castling-right letters `"K"`, `"Q"`, `"k"`, `"q"`. -/
inductive CType where
  | K
  | Q
  | k
  | q
deriving DecidableEq, Repr

/-- The four castling-right flags; the source's `self.__castling` string is
the subset of "KQkq" (in that order) whose flags are true. -/
structure CastRights where
  wK : Bool
  wQ : Bool
  bk : Bool
  bq : Bool
deriving DecidableEq, Repr

/-- `Position.get_castling_right(type)`. -/
def CastRights.get : CastRights → CType → Bool
  | c, .K => c.wK
  | c, .Q => c.wQ
  | c, .k => c.bk
  | c, .q => c.bq

/-- `Position.set_castling_right(type, status)`: the source rebuilds the
castling string walking `["K","Q","k","q"]`, keeping every other right and
writing `type` iff `status`; on the boolean view that is a field update. -/
def CastRights.set : CastRights → CType → Bool → CastRights
  | c, .K, s => { c with wK := s }
  | c, .Q, s => { c with wQ := s }
  | c, .k, s => { c with bk := s }
  | c, .q, s => { c with bq := s }

/-- Class `Position`: the 128-slot 0x88 board array, side to move, castling
rights, en-passant file (0..7 or absent), half-move clock, move number. -/
structure Position where
  board : List (Option Piece)
  turn : Col
  castling : CastRights
  epFile : Option Nat
  halfMoves : Nat
  ply : Nat
deriving DecidableEq, Repr

/-- `self[square]` — `Position.__getitem__` via the 0x88 index. -/
def Position.at (p : Position) (i : Nat) : Option Piece := p.board.getD i none

/-- `Position.get_castling_right(type)` on a position. -/
def getCastlingRight (p : Position) (t : CType) : Bool := p.castling.get t

/-- `Position.set_castling_right(type, status)` on a position. -/
def setCastlingRight (p : Position) (t : CType) (s : Bool) : Position :=
  { p with castling := p.castling.set t s }

/-- `Position.get_theoretical_castling_right(type)`: board lookups at the
king/rook home squares e1=116, h1=119, a1=112, e8=4, h8=7, a8=0. -/
def getTheoreticalCastlingRight (p : Position) (t : CType) : Bool :=
  match t with
  | .K => p.at 116 == some ⟨.w, .k⟩ && p.at 119 == some ⟨.w, .r⟩
  | .Q => p.at 116 == some ⟨.w, .k⟩ && p.at 112 == some ⟨.w, .r⟩
  | .k => p.at 4 == some ⟨.b, .k⟩ && p.at 7 == some ⟨.b, .r⟩
  | .q => p.at 4 == some ⟨.b, .k⟩ && p.at 0 == some ⟨.b, .r⟩

/-- `Position.get_theoretical_ep_right(file)` with the file as index `f`:
checks an enemy pawn on rank 4 (turn `"b"`) / 5 (turn `"w"`) of that file,
an empty square behind it (rank 3 / 6), and a pawn of the moving side on a
neighboring file of the same rank (`from_x_and_y(f ± 1, 3 or 4)`). -/
def getTheoreticalEpRight (p : Position) (f : Nat) : Bool :=
  let pawnSq := x88OfRankFile (if p.turn == .b then 4 else 5) f
  let oppPawn : Piece := ⟨p.turn.opp, .p⟩
  if ! (p.at pawnSq == some oppPawn) then false
  else
    let below := x88OfRankFile (if p.turn == .b then 3 else 6) f
    if (p.at below).isSome then false
    else
      if p.turn == .b then
        decide (0 < f) && p.at (x88OfXY (f - 1) 3) == some ⟨.b, .p⟩
          || decide (f < 7) && p.at (x88OfXY (f + 1) 3) == some ⟨.b, .p⟩
      else
        decide (0 < f) && p.at (x88OfXY (f - 1) 4) == some ⟨.w, .p⟩
          || decide (f < 7) && p.at (x88OfXY (f + 1) 4) == some ⟨.w, .p⟩

/-! FEN serialization (`Position.fen` getter) and parsing (setter). -/

/-- One decimal digit character, for Python's `str()` of a number. -/
def digitChar (d : Nat) : Char := Char.ofNat (48 + d)

/-- Numeric value of a decimal digit character, for Python's `int()`. -/
def dval (c : Char) : Nat := c.toNat - 48

/-- Decimal representation of a natural, fuel-driven (`str(n)` in Python). -/
def natReprGo : Nat → Nat → List Char
  | 0, _ => []
  | fuel + 1, n => if n < 10 then [digitChar n] else natReprGo fuel (n / 10) ++ [digitChar (n % 10)]

/-- `str(n)` for a non-negative integer. -/
def natReprF (n : Nat) : List Char := natReprGo (n + 1) n

/-- `int(s)` for a string of decimal digits (guarded by regexes before use). -/
def parseNat (l : List Char) : Nat := l.foldl (fun a c => a * 10 + dval c) 0

/-- Whitespace in the sense of Python's argument-less `str.split()`. -/
def isWs (c : Char) : Bool := c == ' ' || c == '\t' || c == '\n' || c == '\r'

/-- Helper for `splitWs`, carrying the current (reversed) token. -/
def splitWsGo : List Char → List Char → List (List Char)
  | [], acc => if acc.isEmpty then [] else [acc.reverse]
  | c :: cs, acc =>
    if isWs c then
      if acc.isEmpty then splitWsGo cs [] else acc.reverse :: splitWsGo cs []
    else splitWsGo cs (c :: acc)

/-- Python `fen.split()`: split on whitespace runs, dropping empty tokens. -/
def splitWs (l : List Char) : List (List Char) := splitWsGo l []

/-- Python `s.split("/")` (single separator character, empties kept). -/
def splitOnChar (sep : Char) : List Char → List (List Char)
  | [] => [[]]
  | c :: cs =>
    match splitOnChar sep cs with
    | [] => [[]]
    | r :: rs => if c == sep then [] :: r :: rs else (c :: r) :: rs

/-- One row of the FEN board field: the getter's inner loop over the 8
files of a rank, carrying the `empty` counter and flushing it as a digit
before each piece symbol and at the end of the rank. -/
def emitRowGo : List (Option Piece) → Nat → List Char
  | [], 0 => []
  | [], e + 1 => natReprF (e + 1)
  | none :: rest, e => emitRowGo rest (e + 1)
  | some pc :: rest, e =>
    (if 0 < e then natReprF e else []) ++ pc.symbol :: emitRowGo rest 0

/-- Run-length encoding of one rank (8 board cells). -/
def emitRow (cells : List (Option Piece)) : List Char := emitRowGo cells 0

/-- The 8 consecutive meaningful cells of rank `8 - k` in the 0x88 board
array: indices `16*k` .. `16*k + 7` (the getter's `y` runs 7 down to 0, and
`from_x_and_y(x, y).x88 = x + 16*(7-y)`, so row `k = 7 - y`). -/
def rowCells (b : List (Option Piece)) (k : Nat) : List (Option Piece) :=
  (b.drop (16 * k)).take 8

/-- Python `sep.join(tokens)` (the getter appends "/" after every rank but
the last, which is the same thing). -/
def joinSep (sep : List Char) : List (List Char) → List Char
  | [] => []
  | [t] => t
  | t :: ts => t ++ sep ++ joinSep sep ts

/-- The piece-placement field of the FEN: ranks 8 down to 1 joined by "/". -/
def fenBoardChars (b : List (Option Piece)) : List Char :=
  joinSep ['/'] ((List.range 8).map fun k => emitRow (rowCells b k))

/-- The castling field: `self.__castling if self.__castling else "-"`, with
the castling string reconstructed in its invariant "KQkq" order. -/
def castlingChars (c : CastRights) : List Char :=
  let s := (if c.wK then ['K'] else []) ++ (if c.wQ then ['Q'] else [])
      ++ (if c.bk then ['k'] else []) ++ (if c.bq then ['q'] else [])
  if s.isEmpty then ['-'] else s

/-- The en-passant field: emitted only when the stored file admits a
theoretically legal capture (`self.ep_file and get_theoretical_ep_right`),
as the file letter followed by "3" (turn `"b"`) or "6" (turn `"w"`). -/
def epChars (p : Position) : List Char :=
  match p.epFile with
  | some f =>
    if getTheoreticalEpRight p f then [Char.ofNat (97 + f), if p.turn == .b then '3' else '6']
    else ['-']
  | none => ['-']

/-- Whether the getter keeps the stored en-passant file (the claim's
"theoretically-legal capture exists" condition). -/
def epKeep (p : Position) : Bool :=
  match p.epFile with
  | some f => getTheoreticalEpRight p f
  | none => false

/-- `Position.fen` getter, as a character list: the six space-joined fields. -/
def fenChars (p : Position) : List Char :=
  joinSep [' ']
    [fenBoardChars p.board,
     (if p.turn == .w then ['w'] else ['b']),
     castlingChars p.castling,
     epChars p,
     natReprF p.halfMoves,
     natReprF p.ply]

/-- `Position.fen` getter. -/
def fenGet (p : Position) : String := ⟨fenChars p⟩

/-- The digits accepted inside the board field (`char in "12345678"`). -/
def isFenDigit (c : Char) : Bool :=
  c == '1' || c == '2' || c == '3' || c == '4' || c == '5' || c == '6' || c == '7' || c == '8'

/-- `char in "pnbrkqPNBRKQ"`. -/
def isPieceChar (c : Char) : Bool := (pieceFromSymbol c).isSome

/-- The setter's per-row character validation, carrying
`previous_was_number`; the row's `field_sum != 8` check is dead code in the
source (the `Exception` there is constructed but never raised), so no sum
condition appears here. -/
def validateRow : List Char → Bool → Bool
  | [], _ => true
  | c :: cs, prev =>
    if isFenDigit c then !prev && validateRow cs true
    else if isPieceChar c then validateRow cs false
    else false

/-- Validation of all rows of the board field. -/
def validateRows (rows : List (List Char)) : Bool := rows.all fun r => validateRow r false

/-- Subsequence test, used to express the castling-field regex. -/
def isSubseq : List Char → List Char → Bool
  | [], _ => true
  | _ :: _, [] => false
  | c :: cs, d :: ds => if c == d then isSubseq cs ds else isSubseq (c :: cs) ds

/-- The castling-field regex `^(KQ?k?q?|Qk?q?|kq?|q|-)$`: exactly the
non-empty subsequences of "KQkq", or "-". -/
def castlingFieldOk (l : List Char) : Bool :=
  l == ['-'] || (!l.isEmpty && isSubseq l ['K', 'Q', 'k', 'q'])

/-- The en-passant-field regex `^(-|[a-h][36])$`. -/
def epFieldOk (l : List Char) : Bool :=
  match l with
  | ['-'] => true
  | [f, r] => ('a' ≤ f && f ≤ 'h') && (r == '3' || r == '6')
  | _ => false

/-- The ply-field regex `^[1-9][0-9]*$`. -/
def plyFieldOk (l : List Char) : Bool :=
  match l with
  | c :: cs => ('1' ≤ c && c ≤ '9') && cs.all fun d => '0' ≤ d && d ≤ '9'
  | [] => false

/-- The half-move-field regex `^(0|[1-9][0-9]*)$`. -/
def halfFieldOk (l : List Char) : Bool := l == ['0'] || plyFieldOk l

/-- The setter's en-passant assignment: `None` for "-", else the file
letter of `tokens[3][0]` as its 0..7 index (`ord(c) - ord("a")`). -/
def epFromToken (t3 : List Char) : Option Nat :=
  match t3 with
  | ['-'] => none
  | f :: _ => some (f.toNat - 97)
  | [] => none

/-- The setter's board-building loop: walk the placement field with the
running index `i`; "/" advances by 8, a digit by its value, a piece symbol
is stored and advances by 1. -/
def buildGo : List Char → Nat → List (Option Piece) → List (Option Piece)
  | [], _, b => b
  | c :: cs, i, b =>
    if c == '/' then buildGo cs (i + 8) b
    else if isFenDigit c then buildGo cs (i + dval c) b
    else
      match pieceFromSymbol c with
      | some pc => buildGo cs (i + 1) (b.set i (some pc))
      | none => buildGo cs (i + 1) b

/-- The blank 128-slot board (`[None] * 128`). -/
def blankBoard : List (Option Piece) := List.replicate 128 none

/-- The `Position.fen` setter on the six whitespace-separated tokens.
Checks appear in source order; the per-row field-sum check is missing from
the source (its `Exception` is built but not raised) and is therefore
absent here too. -/
def fenSetCore (t0 t1 t2 t3 t4 t5 : List Char) : Except String Position :=
  let rows := splitOnChar '/' t0
  if rows.length ≠ 8 then .error "A FEN does not consist of 8 rows."
  else if ! validateRows rows then .error "Position part of the FEN is invalid."
  else if ! (t1 == ['w'] || t1 == ['b']) then .error "Turn part of the FEN is invalid."
  else if ! castlingFieldOk t2 then .error "Castling part of the FEN is invalid."
  else if ! epFieldOk t3 then .error "En-passant part of the FEN is invalid."
  else if ! halfFieldOk t4 then .error "Half move part of the FEN is invalid."
  else if ! plyFieldOk t5 then .error "Ply part of the FEN is invalid."
  else
    .ok
      { board := buildGo t0 0 blankBoard
        turn := if t1 == ['w'] then .w else .b
        castling :=
          { wK := t2.contains 'K', wQ := t2.contains 'Q'
            bk := t2.contains 'k', bq := t2.contains 'q' }
        epFile := epFromToken t3
        halfMoves := parseNat t4
        ply := parseNat t5 }

/-- The `Position.fen` setter (also the `Position(fen)` constructor): split
into six fields or fail, then parse. -/
def fenSet (s : String) : Except String Position :=
  match splitWs s.data with
  | [t0, t1, t2, t3, t4, t5] => fenSetCore t0 t1 t2 t3 t4 t5
  | _ => .error "A FEN does not consist of 6 parts."

/-- Extract the parsed position, for building concrete test positions. -/
def posOf (s : String) : Position :=
  match fenSet s with
  | .ok p => p
  | .error _ => ⟨blankBoard, .w, ⟨false, false, false, false⟩, none, 0, 1⟩

/-! Move generation, attack detection and `make_move`. -/

/-- `PAWN_OFFSETS` from `get_pseudo_legal_moves`. -/
def pawnOffsets : Col → List Int
  | .b => [16, 32, 17, 15]
  | .w => [-16, -32, -17, -15]

/-- `PIECE_OFFSETS` from `get_pseudo_legal_moves` (empty for pawns). -/
def pieceOffsets : PT → List Int
  | .n => [-18, -33, -31, -14, 18, 33, 31, 14]
  | .b => [-17, -15, 17, 15]
  | .r => [-16, 1, 16, -1]
  | .q => [-17, -16, -15, 1, 17, 16, 15, -1]
  | .k => [-17, -16, -15, 1, 17, 16, 15, -1]
  | .p => []

/-- The generator's `target_index & 0x88` on-board test. Python evaluates
the mask on a two's-complement integer, where every negative index in the
generator's reach (≥ -128) has a mask bit set, so `0 ≤ t` together with the
mask on the absolute value is the same test. -/
def x88Ok (t : Int) : Bool := 0 ≤ t && t.toNat &&& 0x88 == 0

/-- `Square.is_backrank`. -/
def isBackrank (t : Nat) : Bool := yOf t == 0 || yOf t == 7

/-- The four-way promotion fan-out, in the source's `"bnrq"` order. -/
def promoFan (src t : Nat) : List Move :=
  [PT.b, PT.n, PT.r, PT.q].map fun pt => ⟨src, t, some pt⟩

/-- Pawn moves of `get_pseudo_legal_moves` for the pawn on `sq`: single
advance (with promotion fan-out on the back rank), double advance from the
home rank through empty squares, and the two capture offsets onto enemy
pieces or onto an empty square of the en-passant file. The source performs
the single-advance lookup with no mask (it would raise for a pawn already
standing on the far rank); such pawns cannot occur in the positions used
here, and the embedding skips the move instead. -/
def pawnMoves (p : Position) (sq : Nat) : List Move :=
  let c := p.turn
  let single : Int := (sq : Int) + (pawnOffsets c).getD 0 0
  let advances :=
    if x88Ok single && (p.at single.toNat).isNone then
      let t := single.toNat
      let adv1 := if isBackrank t then promoFan sq t else [⟨sq, t, none⟩]
      let adv2 :=
        if (c == .w && rankOf sq == 2) || (c == .b && rankOf sq == 7) then
          let dbl : Int := (sq : Int) + (pawnOffsets c).getD 1 0
          if x88Ok dbl && (p.at dbl.toNat).isNone then [Move.mk sq dbl.toNat none] else []
        else []
      adv1 ++ adv2
    else []
  let caps := ([2, 3] : List Nat).flatMap fun j =>
    let ti : Int := (sq : Int) + (pawnOffsets c).getD j 0
    if ! x88Ok ti then []
    else
      let t := ti.toNat
      match p.at t with
      | some victim =>
        if victim.color != c then
          if isBackrank t then promoFan sq t else [⟨sq, t, none⟩]
        else []
      | none => if p.epFile == some (fileOf t) then [⟨sq, t, none⟩] else []
  advances ++ caps

/-- Ray walk of the generator's `while True` loop: empty squares yield and
continue (knight/king stop after one step), the first enemy piece yields
and stops, a friendly piece stops. -/
def rayGo (p : Position) (src : Nat) (off : Int) (oneStep : Bool) : Nat → Int → List Move
  | 0, _ => []
  | fuel + 1, ti =>
    if ! x88Ok ti then []
    else
      let t := ti.toNat
      match p.at t with
      | none => Move.mk src t none :: (if oneStep then [] else rayGo p src off oneStep fuel (ti + off))
      | some q => if q.color == p.turn then [] else [⟨src, t, none⟩]

/-- All generator moves for the piece `pc` standing on `sq`. -/
def pieceMoves (p : Position) (sq : Nat) (pc : Piece) : List Move :=
  if pc.ptype == .p then pawnMoves p sq
  else
    (pieceOffsets pc.ptype).flatMap fun off =>
      rayGo p sq off (pc.ptype == .n || pc.ptype == .k) 8 ((sq : Int) + off)

/-- The board scan of `get_pseudo_legal_moves` (indices 0..127 in order,
pieces of the side to move only). -/
def scanMoves (p : Position) : List Move :=
  (List.range 128).flatMap fun i =>
    match p.at i with
    | some pc => if pc.color == p.turn then pieceMoves p i pc else []
    | none => []

/-- `Position.get_king(color)`: the first matching king in board order. -/
def getKingGo (c : Col) : List (Option Piece) → Nat → Option Nat
  | [], _ => none
  | some pc :: rest, i => if pc.color == c && pc.ptype == .k then some i else getKingGo c rest (i + 1)
  | none :: rest, i => getKingGo c rest (i + 1)

/-- `Position.get_king(color)`. -/
def getKing (p : Position) (c : Col) : Option Nat := getKingGo c p.board 0

/-- `SHIFTS` from `get_attackers`. -/
def shiftOf : PT → Nat
  | .p => 0
  | .n => 1
  | .b => 2
  | .r => 3
  | .q => 4
  | .k => 5

/-- `ATTACKS` from `get_attackers` (239 entries). -/
def attacksTable : List Nat :=
  [20, 0, 0, 0, 0, 0, 0, 24, 0, 0, 0, 0, 0, 0, 20, 0,
   0, 20, 0, 0, 0, 0, 0, 24, 0, 0, 0, 0, 0, 20, 0, 0,
   0, 0, 20, 0, 0, 0, 0, 24, 0, 0, 0, 0, 20, 0, 0, 0,
   0, 0, 0, 20, 0, 0, 0, 24, 0, 0, 0, 20, 0, 0, 0, 0,
   0, 0, 0, 0, 20, 0, 0, 24, 0, 0, 20, 0, 0, 0, 0, 0,
   0, 0, 0, 0, 0, 20, 2, 24, 2, 20, 0, 0, 0, 0, 0, 0,
   0, 0, 0, 0, 0, 2, 53, 56, 53, 2, 0, 0, 0, 0, 0, 0,
   24, 24, 24, 24, 24, 24, 56, 0, 56, 24, 24, 24, 24, 24, 24, 0,
   0, 0, 0, 0, 0, 2, 53, 56, 53, 2, 0, 0, 0, 0, 0, 0,
   0, 0, 0, 0, 0, 20, 2, 24, 2, 20, 0, 0, 0, 0, 0, 0,
   0, 0, 0, 0, 20, 0, 0, 24, 0, 0, 20, 0, 0, 0, 0, 0,
   0, 0, 0, 20, 0, 0, 0, 24, 0, 0, 0, 20, 0, 0, 0, 0,
   0, 0, 20, 0, 0, 0, 0, 24, 0, 0, 0, 0, 20, 0, 0, 0,
   0, 20, 0, 0, 0, 0, 0, 24, 0, 0, 0, 0, 0, 20, 0, 0,
   20, 0, 0, 0, 0, 0, 0, 24, 0, 0, 0, 0, 0, 0, 20]

/-- `RAYS` from `get_attackers` (239 entries). -/
def raysTable : List Int :=
  [17, 0, 0, 0, 0, 0, 0, 16, 0, 0, 0, 0, 0, 0, 15, 0,
   0, 17, 0, 0, 0, 0, 0, 16, 0, 0, 0, 0, 0, 15, 0, 0,
   0, 0, 17, 0, 0, 0, 0, 16, 0, 0, 0, 0, 15, 0, 0, 0,
   0, 0, 0, 17, 0, 0, 0, 16, 0, 0, 0, 15, 0, 0, 0, 0,
   0, 0, 0, 0, 17, 0, 0, 16, 0, 0, 15, 0, 0, 0, 0, 0,
   0, 0, 0, 0, 0, 17, 0, 16, 0, 15, 0, 0, 0, 0, 0, 0,
   0, 0, 0, 0, 0, 0, 17, 16, 15, 0, 0, 0, 0, 0, 0, 0,
   1, 1, 1, 1, 1, 1, 1, 0, -1, -1, -1, -1, -1, -1, -1, 0,
   0, 0, 0, 0, 0, 0, -15, -16, -17, 0, 0, 0, 0, 0, 0, 0,
   0, 0, 0, 0, 0, -15, 0, -16, 0, -17, 0, 0, 0, 0, 0, 0,
   0, 0, 0, 0, -15, 0, 0, -16, 0, 0, -17, 0, 0, 0, 0, 0,
   0, 0, 0, -15, 0, 0, 0, -16, 0, 0, 0, -17, 0, 0, 0, 0,
   0, 0, -15, 0, 0, 0, 0, -16, 0, 0, 0, 0, -17, 0, 0, 0,
   0, -15, 0, 0, 0, 0, 0, -16, 0, 0, 0, 0, 0, -17, 0, 0,
   -15, 0, 0, 0, 0, 0, 0, -16, 0, 0, 0, 0, 0, 0, -17]

/-- The blocking walk of `get_attackers`: step from the attacker toward the
target, stopping at the target or at the first occupied square. -/
def rayBlocked (b : List (Option Piece)) : Nat → Int → Int → Int → Bool
  | 0, _, _, _ => true
  | fuel + 1, j, tgt, off =>
    if j == tgt then false
    else if (b.getD j.toNat none).isSome then true
    else rayBlocked b fuel (j + off) tgt off

/-- The scan of `get_attackers` over the board cells, keeping the source's
yield order and its quirk that an adjacent king is yielded twice (once by
the knight/king case and once by the unblocked zero-length ray). -/
def attackersGo (p : Position) (color : Col) (tgtSq : Nat) : List (Option Piece) → Nat → List Nat
  | [], _ => []
  | cell :: rest, i =>
    let tail := attackersGo p color tgtSq rest (i + 1)
    match cell with
    | none => tail
    | some pc =>
      if pc.color != color then tail
      else
        let diff : Int := (i : Int) - (tgtSq : Int)
        let idx := (diff + 119).toNat
        if attacksTable.getD idx 0 &&& (1 <<< shiftOf pc.ptype) != 0 then
          if pc.ptype == .p then
            (if 0 < diff then (if pc.color == .w then [i] else [])
             else (if pc.color == .b then [i] else [])) ++ tail
          else
            (if pc.ptype == .n || pc.ptype == .k then [i] else [])
              ++ (let off := raysTable.getD idx 0
                  if rayBlocked p.board 8 ((i : Int) + off) (tgtSq : Int) off then []
                  else [i])
              ++ tail
        else tail

/-- `Position.get_attackers(color, square)`. -/
def getAttackers (p : Position) (c : Col) (sq : Nat) : List Nat :=
  attackersGo p c sq p.board 0

/-- `Position.is_attacked(color, square)`: at least one attacker. -/
def isAttacked (p : Position) (c : Col) (sq : Nat) : Bool :=
  ! (getAttackers p c sq).isEmpty

/-- `Position.is_king_attacked(color)` (False when that king is absent). -/
def isKingAttacked (p : Position) (c : Col) : Bool :=
  match getKing p c with
  | some sq => isAttacked p c.opp sq
  | none => false

/-- `Position.is_check()`. -/
def isCheck (p : Position) : Bool := isKingAttacked p p.turn

/-- The castling moves of `get_pseudo_legal_moves`: right set, squares
between king and rook empty, king not in check, transit and destination not
attacked. The source dereferences `get_king(...)` without a `None` check
(it would raise if the king were absent); the embedding yields nothing
then. -/
def castlingMoves (p : Position) : List Move :=
  let opponent := p.turn.opp
  let kingSide :=
    if getCastlingRight p (if p.turn == .b then .k else .K) then
      match getKing p p.turn with
      | some o =>
        let toSq := o + 2
        if (p.at (o + 1)).isNone && (p.at toSq).isNone && ! isCheck p
            && ! isAttacked p opponent (o + 1) && ! isAttacked p opponent toSq then
          [Move.mk o toSq none]
        else []
      | none => []
    else []
  let queenSide :=
    if getCastlingRight p (if p.turn == .b then .q else .Q) then
      match getKing p p.turn with
      | some o =>
        let toSq := o - 2
        if (p.at (o - 1)).isNone && (p.at (o - 2)).isNone && (p.at (o - 3)).isNone
            && ! isCheck p && ! isAttacked p opponent (o - 1) && ! isAttacked p opponent toSq then
          [Move.mk o toSq none]
        else []
      | none => []
    else []
  kingSide ++ queenSide

/-- `Position.get_pseudo_legal_moves()` as the list it yields. -/
def pseudoLegalMoves (p : Position) : List Move := scanMoves p ++ castlingMoves p

/-- Everything `Position.make_move(move, False)` does before the final
castling-rights pruning loop, in source order: relocate the piece, toggle
the turn, clear and conditionally recompute the en-passant file (removing
the captured pawn of a diagonal pawn move onto an empty square, with the
removal side chosen by the already-toggled turn), apply promotion, relocate
the rook of a two-file king move, and update the two counters. The castling
field is untouched until the pruning loop. -/
def preMove (p : Position) (m : Move) : Position :=
  let piece := p.at m.src
  let captureOrig := p.at m.tgt
  let board1 := (p.board.set m.tgt (p.at m.src)).set m.src none
  let turn2 := p.turn.opp
  let isPawn := match piece with | some pc => pc.ptype == .p | none => false
  let diag := fileOf m.tgt != fileOf m.src
  let epCap := isPawn && diag && captureOrig.isNone
  let board2 :=
    if epCap then
      if turn2 == .w then board1.set (m.tgt - 16) none else board1.set (m.tgt + 16) none
    else board1
  let captureFlag := captureOrig.isSome || epCap
  let ep2 :=
    if isPawn && ((rankOf m.tgt : Int) - (rankOf m.src : Int)).natAbs == 2 then
      if getTheoreticalEpRight { p with board := board2, turn := turn2, epFile := none } (fileOf m.tgt)
      then some (fileOf m.tgt)
      else none
    else none
  let board3 :=
    match m.promo, piece with
    | some pt, some pc => board2.set m.tgt (some ⟨pc.color, pt⟩)
    | _, _ => board2
  let isKing := match piece with | some pc => pc.ptype == .k | none => false
  let steps : Int := (fileOf m.tgt : Int) - (fileOf m.src : Int)
  let board4 :=
    if isKing && steps.natAbs == 2 then
      let rookTgt := if steps == -2 then m.tgt + 1 else m.tgt - 1
      let rookSrc := if steps == -2 then m.tgt - 2 else m.tgt + 1
      (board3.set rookTgt (board3.getD rookSrc none)).set rookSrc none
    else board3
  let half2 := if isPawn || captureFlag then 0 else p.halfMoves + 1
  let ply2 := if turn2 == .w then p.ply + 1 else p.ply
  { board := board4, turn := turn2, castling := p.castling, epFile := ep2
    halfMoves := half2, ply := ply2 }

/-- One iteration of the final loop of `make_move`: the right `t` is set
to false when its theoretical precondition fails on the current state. -/
def pruneStep (q : Position) (t : CType) : Position :=
  if getTheoreticalCastlingRight q t then q else setCastlingRight q t false

/-- The final loop of `make_move`, over `["K", "Q", "k", "q"]` in order. -/
def pruneCastling (q : Position) : Position :=
  pruneStep (pruneStep (pruneStep (pruneStep q .K) .Q) .k) .q

/-- `Position.make_move(move, validate=False)`. -/
def makeMove (p : Position) (m : Move) : Position := pruneCastling (preMove p m)

/-- `Position.get_legal_moves()`: pseudo-legal moves whose application to a
scratch copy leaves the mover's king unattacked. The source's scratch copy
is `Position(self.fen)`; the FEN round trip can only change the stored
en-passant file, which neither `make_move` nor `is_king_attacked` reads, so
the copy is embedded as the position itself. -/
def legalMoves (p : Position) : List Move :=
  (pseudoLegalMoves p).filter fun m => ! isKingAttacked (makeMove p m) p.turn

/-! Insufficient material and the Zobrist hash. -/

/-- Total number of pieces on the board (`sum(piece_counts.values())`). -/
def countTotal (b : List (Option Piece)) : Nat := b.countP fun cell => cell.isSome

/-- `get_piece_counts()[t]`: pieces of type `t`, both colors. -/
def countTypeAll (b : List (Option Piece)) (t : PT) : Nat :=
  b.countP fun cell =>
    match cell with
    | some pc => pc.ptype == t
    | none => false

/-- `get_piece_counts(c)[t]`: pieces of type `t` and color `c`. -/
def countColType (b : List (Option Piece)) (c : Col) (t : PT) : Nat :=
  b.countP fun cell =>
    match cell with
    | some pc => pc.color == c && pc.ptype == t
    | none => false

/-- The bishop scan of `is_insufficient_material`: walk the board tracking
the `is_light` classification of the bishops seen so far, failing on the
first mismatch. -/
def bishopsSameGo : List (Option Piece) → Nat → Option Bool → Bool
  | [], _, _ => true
  | cell :: rest, i, col =>
    match cell with
    | some pc =>
      if pc.ptype == .b then
        match col with
        | some cprev =>
          if cprev != isLight i then false else bishopsSameGo rest (i + 1) (some (isLight i))
        | none => bishopsSameGo rest (i + 1) (some (isLight i))
      else bishopsSameGo rest (i + 1) col
    | none => bishopsSameGo rest (i + 1) col

/-- `Position.is_insufficient_material()`. -/
def isInsufficientMaterial (p : Position) : Bool :=
  let total := countTotal p.board
  if total == 2 then true
  else if total == 3 then
    countTypeAll p.board .b == 1 || countTypeAll p.board .n == 1
  else if total == 2 + countTypeAll p.board .b then
    if countColType p.board .w .b != 0 && countColType p.board .b .b != 0 then
      bishopsSameGo p.board 0 none
    else false
  else false

/-- `"pPnNbBrRqQkK".index(piece.symbol)` in `ZobristHasher.hash_position`. -/
def pieceZIndex : Piece → Nat
  | ⟨.b, .p⟩ => 0
  | ⟨.w, .p⟩ => 1
  | ⟨.b, .n⟩ => 2
  | ⟨.w, .n⟩ => 3
  | ⟨.b, .b⟩ => 4
  | ⟨.w, .b⟩ => 5
  | ⟨.b, .r⟩ => 6
  | ⟨.w, .r⟩ => 7
  | ⟨.b, .q⟩ => 8
  | ⟨.w, .q⟩ => 9
  | ⟨.b, .k⟩ => 10
  | ⟨.w, .k⟩ => 11

/-- `ZobristHasher.hash_position(position)` over its random array `arr`
(the source validates `len(arr) >= 781`; indices 0..767 cover the occupied
squares, 768..771 the castling flags, 772..779 a theoretically capturable
en-passant file, 780 the white turn). -/
def hashPosition (arr : List Nat) (p : Position) : Nat :=
  let boardKey :=
    (List.range 8).foldl
      (fun key x =>
        (List.range 8).foldl
          (fun key y =>
            match p.at (x88OfXY x y) with
            | some pc => key ^^^ arr.getD (64 * pieceZIndex pc + 8 * y + x) 0
            | none => key)
          key)
      0
  let k1 := if getCastlingRight p .K then boardKey ^^^ arr.getD 768 0 else boardKey
  let k2 := if getCastlingRight p .Q then k1 ^^^ arr.getD 769 0 else k1
  let k3 := if getCastlingRight p .k then k2 ^^^ arr.getD 770 0 else k2
  let k4 := if getCastlingRight p .q then k3 ^^^ arr.getD 771 0 else k3
  let k5 :=
    match p.epFile with
    | some f => if getTheoreticalEpRight p f then k4 ^^^ arr.getD (772 + f) 0 else k4
    | none => k4
  if p.turn == .w then k5 ^^^ arr.getD 780 0 else k5

/-- `START_FEN`. -/
def startFen : String := "rnbqkbnr/pppppppp/8/8/8/8/PPPPPPPP/RNBQKBNR w KQkq - 0 1"

/-! SAN parsing: `Position.get_move_from_san`. -/

/-- The capture groups of the SAN regex
`^([NBKRQ])?([a-h])?([1-8])?x?([a-h][1-8])(=[NBRQ])?(\+|#)?$`; the file and
rank disambiguators are kept as 0..7 / 1..8 numbers, the promotion group as
the raw characters including the `=` (exactly what `matches.group(5)`
yields and what the source passes on to the `Move` constructor). -/
structure SanPat where
  pieceL : Option Char
  srcFile : Option Nat
  srcRank : Option Nat
  target : Nat
  promoG : Option (List Char)
deriving DecidableEq, Repr

/-- The prefix `[NBKRQ]?[a-h]?[1-8]?x?` of the SAN regex; its character
classes are pairwise disjoint, so the greedy left-to-right parse is the
unique regex match. -/
def sanPre (cs : List Char) : Option (Option Char × Option Nat × Option Nat) :=
  let (pieceL, cs) :=
    match cs with
    | c :: rest =>
      if c == 'N' || c == 'B' || c == 'K' || c == 'R' || c == 'Q' then (some c, rest)
      else (none, cs)
    | [] => (none, [])
  let (sf, cs) :=
    match cs with
    | c :: rest => if 'a' ≤ c && c ≤ 'h' then (some (c.toNat - 97), rest) else (none, cs)
    | [] => (none, [])
  let (sr, cs) :=
    match cs with
    | c :: rest => if '1' ≤ c && c ≤ '8' then (some (dval c), rest) else (none, cs)
    | [] => (none, [])
  let cs := match cs with | 'x' :: rest => rest | _ => cs
  if cs.isEmpty then some (pieceL, sf, sr) else none

/-- The SAN regex match: the optional `(\+|#)` and `(=[NBRQ])` suffixes are
determined from the right (their characters occur in no other group), the
mandatory target square is the last two remaining characters, and the rest
is the prefix. -/
def sanParse (l : List Char) : Option SanPat :=
  let l1 := if l.getLast? == some '+' || l.getLast? == some '#' then l.dropLast else l
  let (core, promoG) :=
    match l1.reverse with
    | c :: '=' :: rest =>
      if c == 'N' || c == 'B' || c == 'R' || c == 'Q' then (rest.reverse, some ['=', c])
      else (l1, (none : Option (List Char)))
    | _ => (l1, none)
  match core.reverse with
  | r :: f :: pre =>
    if ('a' ≤ f && f ≤ 'h') && ('1' ≤ r && r ≤ '8') then
      match sanPre pre.reverse with
      | some (pieceL, sf, sr) =>
        some ⟨pieceL, sf, sr, x88OfRankFile (dval r) (f.toNat - 97), promoG⟩
      | none => none
    else none
  | _ => none

/-- `matches.group(1).lower()` fed to `Piece.from_color_and_type` (pawn
when the group is absent; other characters cannot reach this point). -/
def typeOfSanLetter : Char → PT
  | 'N' => .n
  | 'B' => .b
  | 'K' => .k
  | 'R' => .r
  | 'Q' => .q
  | _ => .p

/-- The promotion argument handling of `Move.__init__`: lower-case the
string and accept only the four piece names or letters — so the `"=Q"`
style group produced by `get_move_from_san` is always rejected with a
`ValueError`. -/
def moveCtorPromo : Option (List Char) → Except String (Option PT)
  | none => .ok none
  | some cs =>
    let low := cs.map Char.toLower
    if low == ['n'] || low == "knight".data then .ok (some .n)
    else if low == ['b'] || low == "bishop".data then .ok (some .b)
    else if low == ['r'] || low == "rook".data then .ok (some .r)
    else if low == ['q'] || low == "queen".data then .ok (some .q)
    else .error "Expected promotion type."

/-- The matching loop of `get_move_from_san` over the legal moves: skip
moves of the wrong piece or target, apply the optional file/rank
disambiguators, fail on a second match, and return the matched source. -/
def sanScan (p : Position) (piece : Piece) (pat : SanPat) :
    List Move → Option Nat → Except String (Option Nat)
  | [], src => .ok src
  | m :: rest, src =>
    if ! (p.at m.src == some piece) || m.tgt != pat.target then sanScan p piece pat rest src
    else if (match pat.srcFile with | some f => f != fileOf m.src | none => false) then
      sanScan p piece pat rest src
    else if (match pat.srcRank with | some r => r != rankOf m.src | none => false) then
      sanScan p piece pat rest src
    else
      match src with
      | some _ => .error "Move is ambiguous."
      | none => sanScan p piece pat rest (some m.src)

/-- `Position.get_move_from_san(san)`: fixed king moves for the two
castling tokens; otherwise regex parse, scan of the legal moves for the
unique source, and construction of the returned `Move` (whose constructor
validates the promotion argument). -/
def getMoveFromSan (p : Position) (s : String) : Except String Move :=
  if s == "O-O" || s == "O-O-O" then
    let rank := if p.turn == .w then 1 else 8
    if s == "O-O" then .ok ⟨x88OfRankFile rank 4, x88OfRankFile rank 6, none⟩
    else .ok ⟨x88OfRankFile rank 4, x88OfRankFile rank 2, none⟩
  else
    match sanParse s.data with
    | none => .error "Invalid SAN."
    | some pat =>
      let piece : Piece :=
        ⟨p.turn, match pat.pieceL with | some c => typeOfSanLetter c | none => .p⟩
      match sanScan p piece pat (legalMoves p) none with
      | .error e => .error e
      | .ok none => .error "No legal move matches."
      | .ok (some src) =>
        match moveCtorPromo pat.promoG with
        | .ok pr => .ok ⟨src, pat.target, pr⟩
        | .error e => .error e

/-! `GameHeaderBag`. -/

/-- `GameHeaderBag.KNOWN_HEADERS`. -/
def knownHeaders : List String :=
  ["Event", "Site", "Date", "Round", "White", "Black", "Result",
   "Annotator", "PlyCount", "TimeControl", "Time", "Termination", "Mode",
   "FEN", "SetUp"]

/-- The bag: the bound game is embedded as its ply counter (the only thing
the bag reads from it), the headers as an insertion-ordered key/value list
(a Python dict). -/
structure HeaderBag where
  game : Option Nat
  headers : List (String × String)
deriving DecidableEq, Repr

/-- The mandatory defaults installed by `__init__`. -/
def defaultBag : HeaderBag :=
  { game := none
    headers := [("Event", "?"), ("Site", "?"), ("Date", "????.??.??"), ("Round", "?"),
                ("White", "?"), ("Black", "?"), ("Result", "*")] }

/-- Dict assignment `self.__headers[k] = v`: replace in place or append. -/
def storeH : List (String × String) → String → String → List (String × String)
  | [], k, v => [(k, v)]
  | kv :: rest, k, v => if kv.1 == k then (k, v) :: rest else kv :: storeH rest k v

/-- Key-presence test on the stored dict. -/
def hasStored (bag : HeaderBag) (k : String) : Bool := bag.headers.any fun kv => kv.1 == k

/-- Dict lookup on the stored dict. -/
def lookupStored (bag : HeaderBag) (k : String) : Option String :=
  (bag.headers.find? fun kv => kv.1 == k).map Prod.snd

/-- Python `str.lower` / `str.upper` for the ASCII strings involved
(character-wise, spelled out so it reduces in the kernel). -/
def lowerStr (s : String) : String := ⟨s.data.map Char.toLower⟩

/-- See `lowerStr`. -/
def upperStr (s : String) : String := ⟨s.data.map Char.toUpper⟩

/-- Python `str.endswith` on character lists. -/
def endsWithL (s suf : List Char) : Bool := (s.reverse.take suf.length) == suf.reverse

/-- `GameHeaderBag.__normalize_key`: the first case-insensitive match over
the known headers followed by the stored keys, else the key itself. -/
def normalizeKey (bag : HeaderBag) (key : String) : String :=
  match (knownHeaders ++ bag.headers.map Prod.fst).find? fun h => lowerStr h == lowerStr key with
  | some h => h
  | none => key

/-- `GameHeaderBag.__contains__`: `PlyCount` is always present on a bound
bag, `SetUp` is present iff `FEN` is (the inner `"FEN" in self` reduces to
a stored-key test, since `"FEN"` normalizes to itself and hits neither
special case), anything else is a stored-key test. -/
def bagContains (bag : HeaderBag) (key : String) : Bool :=
  let k := normalizeKey bag key
  if bag.game.isSome && k == "PlyCount" then true
  else if k == "SetUp" then hasStored bag "FEN"
  else hasStored bag (normalizeKey bag key)

/-- `GameHeaderBag.__getitem__`; `none` models the `KeyError`. On a bound
bag `PlyCount` is the game's ply (an `int` in the source; rendered here),
and `SetUp` answers `"1"` or `"0"` from the presence of `FEN`. -/
def bagGet (bag : HeaderBag) (key : String) : Option String :=
  let k := normalizeKey bag key
  if bag.game.isSome && k == "PlyCount" then bag.game.map fun g => toString g
  else if k == "SetUp" then some (if hasStored bag "FEN" then "1" else "0")
  else lookupStored bag k

/-- `GameHeaderBag.__delitem__`: the seven required headers cannot be
deleted; deleting an absent key is a `KeyError`. -/
def bagDel (bag : HeaderBag) (key : String) : Except String HeaderBag :=
  let k := normalizeKey bag key
  if k == "Event" || k == "Site" || k == "Date" || k == "Round" || k == "White"
      || k == "Black" || k == "Result" then
    .error "The key can not be deleted because it is required."
  else if hasStored bag k then .ok { bag with headers := bag.headers.filter fun kv => kv.1 != k }
  else .error "KeyError"

/-- Python `str.isdigit` for the ASCII strings involved. -/
def allDigits (s : String) : Bool := ! s.data.isEmpty && s.data.all fun c => '0' ≤ c && c ≤ '9'

/-- Gregorian leap year, as `datetime.date` uses. -/
def isLeap (y : Nat) : Bool := (y % 4 == 0 && y % 100 != 0) || y % 400 == 0

/-- Days in a month, as `datetime.date` uses. -/
def daysIn (y m : Nat) : Nat :=
  if m == 2 then (if isLeap y then 29 else 28)
  else if m == 4 || m == 6 || m == 9 || m == 11 then 30
  else 31

/-- The `Date` branch of `__setitem__`: the regex
`^(\?{4}|[0-9]{4})(\.(\?\?|[0-9]{2})\.(\?\?|[0-9]{2}))?$`, year-only values
normalized to `YYYY.??.??`, and fully specified values checked through
`datetime.date` with `????`/`??` replaced by 2000 / 10 / 1. -/
def dateNorm (value : String) : Except String String :=
  let quadOk := fun (a b c d : Char) =>
    (a == '?' && b == '?' && c == '?' && d == '?')
      || (a.isDigit && b.isDigit && c.isDigit && d.isDigit)
  let pairOk := fun (a b : Char) => (a == '?' && b == '?') || (a.isDigit && b.isDigit)
  match value.data with
  | [a, b, c, d] =>
    if quadOk a b c d then .ok ⟨[a, b, c, d] ++ ".??.??".data⟩
    else .error "Invalid value for Date header."
  | [a, b, c, d, '.', m1, m2, '.', d1, d2] =>
    if quadOk a b c d && pairOk m1 m2 && pairOk d1 d2 then
      let y := if a == '?' then 2000 else parseNat [a, b, c, d]
      let mo := if m1 == '?' then 10 else parseNat [m1, m2]
      let da := if d1 == '?' then 1 else parseNat [d1, d2]
      if (1 ≤ y && y ≤ 9999) && (1 ≤ mo && mo ≤ 12) && (1 ≤ da && da ≤ daysIn y mo) then
        .ok value
      else .error "Invalid date."
    else .error "Invalid value for Date header."
  | _ => .error "Invalid value for Date header."

/-- The `Round` branch: dot-separated parts each matching `^(\?|-|[0-9]+)$`. -/
def roundOk (value : String) : Bool :=
  (splitOnChar '.' value.data).all fun part =>
    part == ['?'] || part == ['-'] || (! part.isEmpty && part.all fun c => c.isDigit)

/-- The `Time` branch: `^([0-9]{2}):([0-9]{2}):([0-9]{2})$` with the hour
below 24 and minutes/seconds below 60. -/
def timeOk (value : String) : Bool :=
  match value.data with
  | [h1, h2, ':', m1, m2, ':', s1, s2] =>
    (h1.isDigit && h2.isDigit && m1.isDigit && m2.isDigit && s1.isDigit && s2.isDigit)
      && parseNat [h1, h2] < 24 && parseNat [m1, m2] < 60 && parseNat [s1, s2] < 60
  | _ => false

/-- The `Termination` branch: lower-case, rewrite the chess.com long forms,
then restrict to the eight PGN tokens. -/
def termNorm (value : String) : Except String String :=
  let v := lowerStr value
  let v :=
    if endsWithL v.data " won by resignation".data then "normal"
    else if endsWithL v.data " drawn by repetition".data then "normal"
    else if endsWithL v.data " won by checkmate".data then "normal"
    else if endsWithL v.data " game abandoned".data then "abandoned"
    else v
  if v == "abandoned" || v == "adjudication" || v == "death" || v == "emergency"
      || v == "normal" || v == "rules infraction" || v == "time forfeit"
      || v == "unterminated" then
    .ok v
  else .error "Invalid value for Termination header."

/-- The `Mode` branch: upper-case, then `OTB` or `ICS`. -/
def modeNorm (value : String) : Except String String :=
  let v := upperStr value
  if v == "OTB" || v == "ICS" then .ok v else .error "Invalid value for Mode header."

/-- `GameHeaderBag.__setitem__`: per-key validation/normalization in source
order, the `FEN` branch canonicalizing through the `Position` constructor
(deleting `FEN`/`SetUp` when set to the start position, storing
`SetUp = "1"` otherwise — the inner `self["SetUp"] = "1"` hits no special
branch and is a plain store), and a plain store for everything else
(including `SetUp`, which `__setitem__` never special-cases). -/
def bagSet (bag : HeaderBag) (key value : String) : Except String HeaderBag :=
  let k := normalizeKey bag key
  if k == "Date" then
    (dateNorm value).map fun v => { bag with headers := storeH bag.headers k v }
  else if k == "Round" then
    if roundOk value then .ok { bag with headers := storeH bag.headers k value }
    else .error "Invalid value for Round header."
  else if k == "Result" then
    if value == "1-0" || value == "0-1" || value == "1/2-1/2" || value == "*" then
      .ok { bag with headers := storeH bag.headers k value }
    else .error "Invalid value for Result header."
  else if k == "PlyCount" then
    if allDigits value then
      .ok { bag with headers := storeH bag.headers k ⟨natReprF (parseNat value.data)⟩ }
    else .error "Invalid value for PlyCount header."
  else if k == "TimeControl" then .ok { bag with headers := storeH bag.headers k value }
  else if k == "Time" then
    if timeOk value then .ok { bag with headers := storeH bag.headers k value }
    else .error "Invalid value for Time header."
  else if k == "Termination" then
    (termNorm value).map fun v => { bag with headers := storeH bag.headers k v }
  else if k == "Mode" then
    (modeNorm value).map fun v => { bag with headers := storeH bag.headers k v }
  else if k == "FEN" then
    match fenSet value with
    | .error e => .error e
    | .ok pos =>
      let v := fenGet pos
      if v == startFen && ! hasStored bag "FEN" then .ok bag
      else if v != startFen && hasStored bag "FEN" && lookupStored bag "FEN" == some v then
        .ok bag
      else if (match bag.game with | some g => decide (0 < g) | none => false) then
        .error "FEN header can not be set, when there are already moves."
      else if v == startFen then
        match bagDel bag "FEN" with
        | .error e => .error e
        | .ok bag1 => bagDel bag1 "SetUp"
      else
        .ok { bag with headers := storeH (storeH bag.headers "SetUp" "1") "FEN" v }
  else .ok { bag with headers := storeH bag.headers k value }

/-!
Statement-side helpers used by the claims about en-passant captures: the
en-passant target square (rank 6 for a white mover, rank 3 for a black
mover, on file `f`) and the square of the captured pawn, one rank behind
the target in the mover's direction (rank 5 / rank 4).
-/

/-- The en-passant target square for a mover of the given color. -/
def epTargetSq : Col → Nat → Nat
  | .w, f => f + 32
  | .b, f => f + 80

/-- The square of the pawn captured en passant: one rank behind the target. -/
def epVictimSq : Col → Nat → Nat
  | .w, f => f + 48
  | .b, f => f + 64

/-- Well-formedness invariants every source position satisfies: the board
array has 128 slots, the padding slots (`index % 16 >= 8`, i.e. the x88
mask bit 0x08) are empty, the move number is at least 1 (enforced both by
the `ply` property setter and by the FEN regex `[1-9][0-9]*`), and a stored
en-passant file is a file index. -/
def wfPos (p : Position) : Bool :=
  p.board.length == 128
    && (List.range 128).all (fun i => !(decide (8 ≤ i % 16)) || (p.at i).isNone)
    && decide (1 ≤ p.ply)
    && (match p.epFile with | some f => decide (f < 8) | none => true)

/-- Specification of the FEN board-building loop on one rank: the cells are
written left to right, empty cells skipped. -/
def writeCells : List (Option Piece) → Nat → List (Option Piece) → List (Option Piece)
  | b, _, [] => b
  | b, i, none :: cs => writeCells b (i + 1) cs
  | b, i, some pc :: cs => writeCells (b.set i (some pc)) (i + 1) cs

/-- Specification of the whole board-building loop: rank rows written at
offsets `16 * k`. -/
def writeRows : List (List (Option Piece)) → Nat → List (Option Piece) → List (Option Piece)
  | [], _, b => b
  | r :: rs, k, b => writeRows rs (k + 1) (writeCells b (16 * k) r)

/-- The position after 1. e4 e5 2. Ke2 Ke7 from the start position: both
kings have left their home squares, so all castling rights are pruned. -/
def kingShuffleMid : Position :=
  [(⟨100, 68, none⟩ : Move), ⟨20, 52, none⟩, ⟨116, 100, none⟩, ⟨4, 20, none⟩].foldl
    makeMove (posOf startFen)

/-- The position of the spec's en-passant scenario with colors flipped:
black to move, white having just advanced e2e4 past black's d4 pawn. -/
def c5pos : Position := posOf "rnbqkbnr/ppp1pppp/8/8/3pP3/8/PPPP1PPP/RNBQKBNR b KQkq e3 0 2"

/-- A fixed 781-entry random array for the hash witness. -/
def zArrW : List Nat := List.range 781

/-- A small two-king position for the hash witness. -/
def c8pos : Position := posOf "4k3/8/8/8/8/8/8/4K3 w - - 0 1"

/-- A position carrying a dead en-passant file, for the round-trip witness. -/
def rtWitnessPos : Position :=
  posOf "rnbqkbnr/pppppppp/8/8/4P3/8/PPPP1PPP/RNBQKBNR b KQkq e3 0 1"

/-! Theorems about the claims. -/

/-- C3: the Position constructed from the standard start FEN has exactly 20
legal moves, all distinct. -/
theorem start_position_has_twenty_legal_moves :
    ((fenSet startFen).toOption.map fun p =>
      ((legalMoves p).length, ((legalMoves p).dedup).length)) = some (20, 20) := by
  decide

/-- C2 (code bug): a six-field FEN whose second rank `ppppppp` sums to only
7 files is accepted by the FEN setter — the source builds the
`Exception("... Row with invalid length.")` for `field_sum != 8` but never
raises it, so no format error occurs and a position is produced. -/
theorem fen_invalid_row_sum_accepted :
    ((fenSet "rnbqkbnr/ppppppp/8/8/8/8/PPPPPPPP/RNBQKBNR w KQkq - 0 1").toOption).isSome
      = true := by
  decide

/-- C9 (code bug): in the position `8/8/8/3k4/8/8/8/B1b1K3 w - - 0 1` each
side has exactly king and one bishop, the bishops stand on a1 (index 112)
and c1 (index 114) — both dark squares in the chess sense — yet
`is_insufficient_material` returns `False`, because the source's
`is_dark` formula `(x - y % 2) == 0` classifies a1 and c1 differently. -/
theorem insufficient_material_misses_same_color_bishops :
    countTotal (posOf "8/8/8/3k4/8/8/8/B1b1K3 w - - 0 1").board = 4
    ∧ countColType (posOf "8/8/8/3k4/8/8/8/B1b1K3 w - - 0 1").board .w .b = 1
    ∧ countColType (posOf "8/8/8/3k4/8/8/8/B1b1K3 w - - 0 1").board .b .b = 1
    ∧ (posOf "8/8/8/3k4/8/8/8/B1b1K3 w - - 0 1").at 112 = some ⟨.w, .b⟩
    ∧ (posOf "8/8/8/3k4/8/8/8/B1b1K3 w - - 0 1").at 114 = some ⟨.b, .b⟩
    ∧ isInsufficientMaterial (posOf "8/8/8/3k4/8/8/8/B1b1K3 w - - 0 1") = false := by
  decide

/-- C4 (code bug): in `k7/8/8/pP6/8/8/1P6/K7 w - a6 0 1` (black just played
a7a5; the genuine en-passant target is a6) the generator also yields the
diagonal pawn move b2a3 (indices 97 → 80) although a3 is empty and is not
the en-passant target square — its rank is 3, not 6 — because the capture
branch compares only the file of the landing square with the en-passant
file. -/
theorem pseudo_moves_include_phantom_ep_capture :
    (Move.mk 97 80 none) ∈ pseudoLegalMoves (posOf "k7/8/8/pP6/8/8/1P6/K7 w - a6 0 1")
    ∧ (posOf "k7/8/8/pP6/8/8/1P6/K7 w - a6 0 1").at 80 = none
    ∧ (posOf "k7/8/8/pP6/8/8/1P6/K7 w - a6 0 1").epFile = some 0
    ∧ rankOf 80 = 3 := by
  decide

/-- C7 (code bug): in `k7/4P3/8/8/8/8/8/K7 w - - 0 1` exactly one legal
move promotes to a queen on e8 (index 4), yet `get_move_from_san "e8=Q"`
fails: the matching loop ignores the promotion suffix, so all four
promotion moves match the pattern and the ambiguity branch raises (and even
a unique match would die in the `Move` constructor, which is handed the raw
`"=Q"` group). -/
theorem san_promotion_move_always_fails :
    ((legalMoves (posOf "k7/4P3/8/8/8/8/8/K7 w - - 0 1")).filter fun m =>
        m.tgt == 4 && m.promo == some PT.q).length = 1
    ∧ (getMoveFromSan (posOf "k7/4P3/8/8/8/8/8/K7 w - - 0 1") "e8=Q").toOption = none := by
  decide

/-- C10 (code bug): on a bag without the `FEN` header, membership for
`SetUp` is false but reading `SetUp` yields `"0"` instead of failing with a
missing-key error (the class docstring says the header "does not exist"
then); with `FEN` set, `SetUp` reads `"1"`; and storing any value under
`SetUp` never changes what a read returns. -/
theorem setup_header_not_missing_when_fen_absent :
    bagContains defaultBag "SetUp" = false
    ∧ bagGet defaultBag "SetUp" = some "0"
    ∧ ((bagSet defaultBag "FEN" "4k3/8/8/8/8/8/8/4K3 w - - 0 1").toOption.map fun b =>
        (bagContains b "SetUp", bagGet b "SetUp")) = some (true, some "1")
    ∧ ∀ v : String,
        ((bagSet defaultBag "SetUp" v).toOption.map fun b => bagGet b "SetUp")
          = some (some "0") := by
  refine ⟨by decide, by decide, by decide, fun v => rfl⟩

/-- The pruning loop only touches the castling field. -/
theorem board_pruneStep (q : Position) (t : CType) : (pruneStep q t).board = q.board := by
  unfold pruneStep setCastlingRight
  split <;> rfl

/-- See `board_pruneStep`. -/
theorem board_pruneCastling (q : Position) : (pruneCastling q).board = q.board := by
  simp [pruneCastling, board_pruneStep]

/-- `x88 & 7` ignores multiples of 8 added to a file index. -/
theorem fileOf_addm (f c : Nat) (hf : f < 8) (hc : c % 8 = 0) : fileOf (f + c) = f := by
  unfold fileOf
  rw [show (7 : Nat) = 2 ^ 3 - 1 from rfl, Nat.and_pow_two_sub_one_eq_mod]
  omega

/-- The board produced by `make_move` for a diagonal pawn move onto an
empty square (the source's en-passant case): the pawn is relocated and the
square one rank behind the target — chosen by the already-toggled turn — is
cleared; the promotion and castling stages do not fire. -/
theorem preMove_board_epcap (p : Position) (src tgt : Nat)
    (hpawn : p.at src = some ⟨p.turn, .p⟩)
    (hdiag : fileOf tgt ≠ fileOf src)
    (hempty : p.at tgt = none) :
    (preMove p ⟨src, tgt, none⟩).board
      = if p.turn.opp == .w
        then ((p.board.set tgt (p.at src)).set src none).set (tgt - 16) none
        else ((p.board.set tgt (p.at src)).set src none).set (tgt + 16) none := by
  simp [preMove, hpawn, hempty, hdiag]

/-- C5: applying a legal en-passant capture with `make_move` leaves the
capturing pawn on the target square and clears the captured pawn's actual
square, one rank behind the target — not the target square itself. Stated
for both colors: the mover's pawn stands on `src`, the en-passant target
square of the mover's color on file `f` is empty, and the move is the
diagonal pawn move onto it. -/
theorem ep_capture_removes_pawn_behind_target
    (p : Position) (f src : Nat)
    (hlen : p.board.length = 128) (hf : f < 8)
    (hfile : fileOf src ≠ f)
    (hpawn : p.at src = some ⟨p.turn, .p⟩)
    (hempty : p.at (epTargetSq p.turn f) = none) :
    (makeMove p ⟨src, epTargetSq p.turn f, none⟩).board.get? (epTargetSq p.turn f)
        = some (some ⟨p.turn, .p⟩)
    ∧ (makeMove p ⟨src, epTargetSq p.turn f, none⟩).board.get? (epVictimSq p.turn f)
        = some none := by
  have hff : fileOf (epTargetSq p.turn f) = f := by
    cases p.turn
    · exact fileOf_addm f 32 hf (by omega)
    · exact fileOf_addm f 80 hf (by omega)
  have hdiag : fileOf (epTargetSq p.turn f) ≠ fileOf src := by
    rw [hff]
    exact fun h => hfile h.symm
  have hboard := preMove_board_epcap p src (epTargetSq p.turn f) hpawn hdiag hempty
  unfold makeMove
  rw [board_pruneCastling, hboard]
  cases hturn : p.turn with
  | w =>
    rw [hturn] at hpawn
    have hs : src ≠ f + 32 := by
      intro h
      exact hfile (by rw [h]; exact fileOf_addm f 32 hf (by omega))
    simp only [epTargetSq, epVictimSq, Col.opp,
      show (Col.b == Col.w) = false from rfl, Bool.false_eq_true, if_false]
    have h48 : f + 32 + 16 = f + 48 := by omega
    rw [h48]
    constructor
    · rw [List.get?_set_ne _ _ (by omega : f + 48 ≠ f + 32),
        List.get?_set_ne _ _ hs,
        List.get?_set_eq_of_lt _ (by omega : f + 32 < p.board.length), hpawn]
    · rw [List.get?_set_eq_of_lt]
      simp only [List.length_set, hlen]
      omega
  | b =>
    rw [hturn] at hpawn
    have hs : src ≠ f + 80 := by
      intro h
      exact hfile (by rw [h]; exact fileOf_addm f 80 hf (by omega))
    simp only [epTargetSq, epVictimSq, Col.opp,
      show (Col.w == Col.w) = true from rfl, if_true]
    have h64 : f + 80 - 16 = f + 64 := by omega
    rw [h64]
    constructor
    · rw [List.get?_set_ne _ _ (by omega : f + 64 ≠ f + 80),
        List.get?_set_ne _ _ hs,
        List.get?_set_eq_of_lt _ (by omega : f + 80 < p.board.length), hpawn]
    · rw [List.get?_set_eq_of_lt]
      simp only [List.length_set, hlen]
      omega

/-- Witness for C5: black's d4 pawn (index 67) captures en passant on e3
(file 4); afterwards e3 holds the black pawn and e4 (index 68) is empty. -/
theorem ep_capture_removes_pawn_behind_target_witness :
    (makeMove c5pos ⟨67, epTargetSq c5pos.turn 4, none⟩).board.get? (epTargetSq c5pos.turn 4)
        = some (some ⟨c5pos.turn, .p⟩)
    ∧ (makeMove c5pos ⟨67, epTargetSq c5pos.turn 4, none⟩).board.get? (epVictimSq c5pos.turn 4)
        = some none :=
  ep_capture_removes_pawn_behind_target c5pos 4 67 (by decide) (by decide) (by decide)
    (by decide) (by decide)

/-- One iteration of the castling-rights pruning loop of `make_move`. -/
theorem pruneStep_mono (p : Position) (t' t : CType)
    (h : getCastlingRight p t = false) : getCastlingRight (pruneStep p t') t = false := by
  unfold pruneStep
  split
  · exact h
  · cases t' <;> cases t <;>
      simp_all [getCastlingRight, setCastlingRight, CastRights.get, CastRights.set]

/-- The pruning loop never turns a castling right back on. -/
theorem pruneCastling_mono (p : Position) (t : CType)
    (h : getCastlingRight p t = false) : getCastlingRight (pruneCastling p) t = false :=
  pruneStep_mono _ _ _ (pruneStep_mono _ _ _ (pruneStep_mono _ _ _ (pruneStep_mono _ _ _ h)))

/-- Everything before the pruning loop leaves the castling field alone. -/
theorem preMove_castling (p : Position) (m : Move) : (preMove p m).castling = p.castling := rfl

/-- C6: castling rights never resurrect — if a right is false it stays
false after any sequence of `make_move` applications (the only writes to
the rights in `make_move` are the pruning loop's `set_castling_right(type,
False)` calls). In particular a king that leaves its home square loses the
right on that move, and coming back cannot restore it. -/
theorem castling_rights_never_resurrect (p : Position) (t : CType) (ms : List Move)
    (h : getCastlingRight p t = false) :
    getCastlingRight (ms.foldl makeMove p) t = false := by
  induction ms generalizing p with
  | nil => exact h
  | cons m rest ih =>
    apply ih
    have hpre : getCastlingRight (preMove p m) t = false := by
      show (preMove p m).castling.get t = false
      rw [preMove_castling]
      exact h
    exact pruneCastling_mono _ _ hpre

/-- Witness for C6: white's king-side right is false after the king left
e1, and remains false after the kings walk back home (3. Ke1 Ke8). -/
theorem castling_rights_never_resurrect_witness :
    getCastlingRight kingShuffleMid .K = false
    ∧ getCastlingRight
        ([(⟨100, 116, none⟩ : Move), ⟨20, 4, none⟩].foldl makeMove kingShuffleMid) .K
        = false :=
  ⟨by decide,
   castling_rights_never_resurrect kingShuffleMid .K
     [⟨100, 116, none⟩, ⟨20, 4, none⟩] (by decide)⟩

/-- C8: the position hash depends only on the piece placement, the side to
move, the castling rights and the (theoretically capturable) en-passant
file: positions parsed from one interchange string hash identically,
changing only the two move counters never changes the hash, and any two
positions agreeing on the four hashed components hash identically. -/
theorem hash_ignores_move_counters (arr : List Nat) :
    (∀ s p q, fenSet s = .ok p → fenSet s = .ok q →
      hashPosition arr p = hashPosition arr q)
    ∧ (∀ (p : Position) (h n : Nat),
        hashPosition arr { p with halfMoves := h, ply := n } = hashPosition arr p)
    ∧ (∀ p q : Position, p.board = q.board → p.turn = q.turn → p.castling = q.castling →
        p.epFile = q.epFile → hashPosition arr p = hashPosition arr q) := by
  refine ⟨?_, ?_, ?_⟩
  · intro s p q hp hq
    rw [hp] at hq
    injection hq with h
    rw [h]
  · intro p h n
    rfl
  · intro p q h1 h2 h3 h4
    cases p
    cases q
    simp only at h1 h2 h3 h4
    subst h1 h2 h3 h4
    rfl

/-- Witness for C8 at a concrete array, string and counters. -/
theorem hash_ignores_move_counters_witness :
    hashPosition zArrW c8pos = hashPosition zArrW c8pos
    ∧ hashPosition zArrW { c8pos with halfMoves := 3, ply := 9 } = hashPosition zArrW c8pos :=
  ⟨(hash_ignores_move_counters zArrW).1 "4k3/8/8/8/8/8/8/4K3 w - - 0 1" c8pos c8pos rfl rfl,
   (hash_ignores_move_counters zArrW).2.1 c8pos 3 9⟩

/-! Lemmas about the decimal representation used by the FEN counters. -/

/-- Digits decode to their values. -/
theorem dval_digitChar (d : Nat) (h : d < 10) : dval (digitChar d) = d := by
  interval_cases d <;> decide

/-- Digits are in the `[0-9]` class. -/
theorem digitChar_class (d : Nat) (h : d < 10) :
    (decide ('0' ≤ digitChar d) && decide (digitChar d ≤ '9')) = true := by
  interval_cases d <;> decide

/-- Nonzero digits are in the `[1-9]` class. -/
theorem digitChar_one_nine (d : Nat) (h1 : 1 ≤ d) (h9 : d ≤ 9) :
    (decide ('1' ≤ digitChar d) && decide (digitChar d ≤ '9')) = true := by
  interval_cases d <;> decide

/-- `str(n)` is never empty. -/
theorem natReprGo_ne_nil (fuel n : Nat) (h : n < fuel) : natReprGo fuel n ≠ [] := by
  cases fuel with
  | zero => omega
  | succ fuel =>
    unfold natReprGo
    split
    · simp
    · simp

/-- Folding the digit step over `str(n)` recovers `n` (shifted under any
accumulator). -/
theorem foldl_natReprGo (fuel : Nat) : ∀ n a, n < fuel →
    (natReprGo fuel n).foldl (fun x c => x * 10 + dval c) a
      = a * 10 ^ (natReprGo fuel n).length + n := by
  induction fuel with
  | zero => omega
  | succ fuel ih =>
    intro n a h
    unfold natReprGo
    by_cases h10 : n < 10
    · rw [if_pos h10]
      simp only [List.foldl_cons, List.foldl_nil, List.length_cons, List.length_nil,
        dval_digitChar n h10, pow_one, Nat.zero_add, pow_succ, pow_zero, Nat.one_mul]
    · rw [if_neg h10]
      rw [List.foldl_append]
      rw [ih (n / 10) a (by omega)]
      simp only [List.foldl_cons, List.foldl_nil, List.length_append, List.length_cons,
        List.length_nil, Nat.zero_add]
      rw [dval_digitChar (n % 10) (by omega)]
      have hmod : n / 10 * 10 + n % 10 = n := by omega
      calc (a * 10 ^ (natReprGo fuel (n / 10)).length + n / 10) * 10 + n % 10
          = a * (10 ^ (natReprGo fuel (n / 10)).length * 10) + (n / 10 * 10 + n % 10) := by
            ring
        _ = a * 10 ^ ((natReprGo fuel (n / 10)).length + 1) + n := by rw [hmod, pow_succ]

/-- `int(str(n)) = n`. -/
theorem parseNat_natReprF (n : Nat) : parseNat (natReprF n) = n := by
  unfold parseNat natReprF
  rw [foldl_natReprGo (n + 1) n 0 (by omega)]
  simp

/-- All characters of `str(n)` are decimal digits. -/
theorem natReprGo_digits (fuel : Nat) : ∀ n, n < fuel → ∀ c ∈ natReprGo fuel n,
    (decide ('0' ≤ c) && decide (c ≤ '9')) = true := by
  induction fuel with
  | zero => omega
  | succ fuel ih =>
    intro n h c hc
    unfold natReprGo at hc
    by_cases h10 : n < 10
    · rw [if_pos h10] at hc
      simp only [List.mem_singleton] at hc
      subst hc
      exact digitChar_class n h10
    · rw [if_neg h10] at hc
      rcases List.mem_append.mp hc with hm | hm
      · exact ih (n / 10) (by omega) c hm
      · simp only [List.mem_singleton] at hm
        subst hm
        exact digitChar_class (n % 10) (by omega)

/-- `str(n)` for positive `n` starts with a nonzero digit. -/
theorem natReprGo_head (fuel : Nat) : ∀ n, n < fuel → 1 ≤ n →
    ∃ c cs, natReprGo fuel n = c :: cs
      ∧ (decide ('1' ≤ c) && decide (c ≤ '9')) = true := by
  induction fuel with
  | zero => omega
  | succ fuel ih =>
    intro n h h1
    unfold natReprGo
    by_cases h10 : n < 10
    · rw [if_pos h10]
      exact ⟨digitChar n, [], rfl, digitChar_one_nine n h1 (by omega)⟩
    · rw [if_neg h10]
      obtain ⟨c, cs, heq, hc⟩ := ih (n / 10) (by omega) (by omega)
      exact ⟨c, cs ++ [digitChar (n % 10)], by rw [heq, List.cons_append], hc⟩

/-- `str(n)` for positive `n` matches `[1-9][0-9]*`. -/
theorem plyFieldOk_natReprF (n : Nat) (h : 1 ≤ n) : plyFieldOk (natReprF n) = true := by
  obtain ⟨c, cs, heq, hc⟩ := natReprGo_head (n + 1) n (by omega) h
  have hds := natReprGo_digits (n + 1) n (by omega)
  unfold natReprF at *
  rw [heq]
  rw [heq] at hds
  unfold plyFieldOk
  dsimp only
  rw [hc]
  simp only [Bool.true_and, List.all_eq_true]
  intro d hd
  exact hds d (List.mem_cons_of_mem c hd)

/-- `str(n)` matches `0|[1-9][0-9]*`. -/
theorem halfFieldOk_natReprF (n : Nat) : halfFieldOk (natReprF n) = true := by
  cases n with
  | zero => decide
  | succ m =>
    unfold halfFieldOk
    rw [plyFieldOk_natReprF (m + 1) (by omega)]
    simp

/-- Decimal digits are not whitespace. -/
theorem digitClass_not_ws (c : Char) (h : (decide ('0' ≤ c) && decide (c ≤ '9')) = true) :
    isWs c = false := by
  simp only [Bool.and_eq_true, decide_eq_true_eq] at h
  simp only [isWs, Bool.or_eq_false_iff, beq_eq_false_iff_ne, ne_eq]
  refine ⟨⟨⟨?_, ?_⟩, ?_⟩, ?_⟩ <;> rintro rfl <;> revert h <;> decide

/-! Lemmas about the tokenizers. -/

/-- The unfolding of `joinSep` on a two-or-more element list. -/
theorem joinSep_cons₂ (sep t u : List Char) (ts : List (List Char)) :
    joinSep sep (t :: u :: ts) = t ++ sep ++ joinSep sep (u :: ts) := rfl

/-- `splitWsGo` on whitespace-free input yields a single token. -/
theorem splitWsGo_noWs (t : List Char) : ∀ acc, (∀ c ∈ t, isWs c = false) →
    splitWsGo t acc = if acc.isEmpty && t.isEmpty then [] else [acc.reverse ++ t] := by
  induction t with
  | nil =>
    intro acc h
    simp only [splitWsGo, List.isEmpty_nil, Bool.and_true, List.append_nil]
  | cons c cs ih =>
    intro acc h
    have hc : isWs c = false := h c (List.mem_cons_self c cs)
    unfold splitWsGo
    rw [hc]
    simp only [Bool.false_eq_true, if_false]
    rw [ih (c :: acc) (fun d hd => h d (List.mem_cons_of_mem c hd))]
    simp [List.reverse_cons, List.append_assoc]

/-- `splitWsGo` consumes one whitespace-free token up to a space. -/
theorem splitWsGo_token (t : List Char) : ∀ cs acc, (∀ c ∈ t, isWs c = false) →
    (t ≠ [] ∨ acc ≠ []) →
    splitWsGo (t ++ ' ' :: cs) acc = (acc.reverse ++ t) :: splitWsGo cs [] := by
  induction t with
  | nil =>
    intro cs acc h hne
    have hacc : acc.isEmpty = false := by
      cases acc with
      | nil => rcases hne with hne | hne <;> simp_all
      | cons a as => rfl
    simp only [List.nil_append]
    show (if isWs ' ' then
        (if acc.isEmpty then splitWsGo cs [] else acc.reverse :: splitWsGo cs [])
      else splitWsGo cs (' ' :: acc)) = (acc.reverse ++ []) :: splitWsGo cs []
    rw [show isWs ' ' = true from rfl, hacc]
    simp
  | cons c t' ih =>
    intro cs acc h hne
    have hc : isWs c = false := h c (List.mem_cons_self c t')
    simp only [List.cons_append]
    show (if isWs c then
        (if acc.isEmpty then splitWsGo (t' ++ ' ' :: cs) []
         else acc.reverse :: splitWsGo (t' ++ ' ' :: cs) [])
      else splitWsGo (t' ++ ' ' :: cs) (c :: acc))
      = (acc.reverse ++ c :: t') :: splitWsGo cs []
    rw [hc]
    simp only [Bool.false_eq_true, if_false]
    rw [ih cs (c :: acc) (fun d hd => h d (List.mem_cons_of_mem c hd))
      (Or.inr (List.cons_ne_nil c acc))]
    simp [List.reverse_cons, List.append_assoc]

/-- Python `fen.split()` of a single-space join of nonempty whitespace-free
tokens gives the tokens back. -/
theorem splitWs_joinSep (toks : List (List Char))
    (h : ∀ t ∈ toks, t ≠ [] ∧ ∀ c ∈ t, isWs c = false) :
    splitWs (joinSep [' '] toks) = toks := by
  induction toks with
  | nil => rfl
  | cons t ts ih =>
    cases ts with
    | nil =>
      obtain ⟨hne, hws⟩ := h t (List.mem_cons_self t [])
      have hemp : t.isEmpty = false := by
        cases t with
        | nil => exact absurd rfl hne
        | cons a as => rfl
      show splitWsGo (joinSep [' '] [t]) [] = [t]
      unfold joinSep
      rw [splitWsGo_noWs t [] hws, hemp]
      simp
    | cons t' ts' =>
      obtain ⟨hne, hws⟩ := h t (List.mem_cons_self t (t' :: ts'))
      show splitWsGo (joinSep [' '] (t :: t' :: ts')) [] = t :: t' :: ts'
      have hjoin : joinSep [' '] (t :: t' :: ts') = t ++ ' ' :: joinSep [' '] (t' :: ts') := by
        rw [joinSep_cons₂, List.append_assoc, List.singleton_append]
      rw [hjoin, splitWsGo_token t _ [] hws (Or.inl hne)]
      simp only [List.reverse_nil, List.nil_append, List.cons.injEq, true_and]
      exact ih fun u hu => h u (List.mem_cons_of_mem t hu)

/-- `splitOnChar` is never empty. -/
theorem splitOnChar_ne_nil (sep : Char) (l : List Char) : splitOnChar sep l ≠ [] := by
  cases l with
  | nil => simp [splitOnChar]
  | cons c cs =>
    unfold splitOnChar
    split
    · simp
    · split <;> simp

/-- `s.split("/")` on a separator-free string. -/
theorem splitOnChar_noSep (r : List Char) (hsep : ∀ c ∈ r, (c == '/') = false) :
    splitOnChar '/' r = [r] := by
  induction r with
  | nil => rfl
  | cons c cs ih =>
    unfold splitOnChar
    rw [ih fun d hd => hsep d (List.mem_cons_of_mem c hd)]
    rw [hsep c (List.mem_cons_self c cs)]
    simp

/-- The unfolding of `splitOnChar` on a cons. -/
theorem splitOnChar_cons_eq (sep c : Char) (cs : List Char) :
    splitOnChar sep (c :: cs)
      = match splitOnChar sep cs with
        | [] => [[]]
        | r :: rs => if c == sep then [] :: r :: rs else (c :: r) :: rs := rfl

/-- `s.split("/")` peels one separator-free row. -/
theorem splitOnChar_append (r : List Char) (rest : List Char)
    (hsep : ∀ c ∈ r, (c == '/') = false) :
    splitOnChar '/' (r ++ '/' :: rest) = r :: splitOnChar '/' rest := by
  induction r with
  | nil =>
    obtain ⟨r0, rs0, heq⟩ := List.exists_cons_of_ne_nil (splitOnChar_ne_nil '/' rest)
    simp only [List.nil_append]
    rw [splitOnChar_cons_eq, heq]
    simp
  | cons c cs ih =>
    simp only [List.cons_append]
    rw [splitOnChar_cons_eq]
    rw [ih fun d hd => hsep d (List.mem_cons_of_mem c hd)]
    dsimp only
    rw [hsep c (List.mem_cons_self c cs)]
    simp

/-- `s.split("/")` of a "/"-join of separator-free rows gives the rows. -/
theorem splitOnChar_joinSep (rows : List (List Char))
    (h : ∀ r ∈ rows, ∀ c ∈ r, (c == '/') = false) (hne : rows ≠ []) :
    splitOnChar '/' (joinSep ['/'] rows) = rows := by
  induction rows with
  | nil => exact absurd rfl hne
  | cons r ts ih =>
    cases ts with
    | nil => exact splitOnChar_noSep r (h r (List.mem_cons_self r []))
    | cons r' ts' =>
      have hjoin : joinSep ['/'] (r :: r' :: ts') = r ++ '/' :: joinSep ['/'] (r' :: ts') := by
        rw [joinSep_cons₂, List.append_assoc, List.singleton_append]
      rw [hjoin, splitOnChar_append r _ (h r (List.mem_cons_self r (r' :: ts')))]
      rw [ih (fun u hu => h u (List.mem_cons_of_mem r hu)) (List.cons_ne_nil r' ts')]

/-! Lemmas about the FEN board field: emission characters and validation. -/

/-- Piece symbols parse back to the piece. -/
theorem pieceFromSymbol_symbol (pc : Piece) : pieceFromSymbol pc.symbol = some pc := by
  rcases pc with ⟨c, t⟩
  cases c <;> cases t <;> rfl

/-- Character classes of a piece symbol. -/
theorem symbol_class (pc : Piece) :
    isFenDigit pc.symbol = false ∧ isPieceChar pc.symbol = true
      ∧ (pc.symbol == '/') = false ∧ isWs pc.symbol = false := by
  rcases pc with ⟨c, t⟩
  cases c <;> cases t <;> decide

/-- Character classes of an emitted empty-count digit (1..8). -/
theorem fenDigitChar_facts (e : Nat) (h1 : 1 ≤ e) (h8 : e ≤ 8) :
    isFenDigit (digitChar e) = true ∧ isPieceChar (digitChar e) = false
      ∧ (digitChar e == '/') = false ∧ isWs (digitChar e) = false
      ∧ dval (digitChar e) = e := by
  interval_cases e <;> decide

/-- `str(e)` of a single-digit count is that digit. -/
theorem natReprF_single (e : Nat) (h : e < 10) : natReprF e = [digitChar e] := by
  unfold natReprF natReprGo
  rw [if_pos h]

/-- An emitted rank is never empty (it has a cell or a flushed count). -/
theorem emitRowGo_ne_nil (cells : List (Option Piece)) : ∀ e, cells ≠ [] ∨ 1 ≤ e →
    emitRowGo cells e ≠ [] := by
  induction cells with
  | nil =>
    intro e h
    rcases h with h | h
    · exact absurd rfl h
    · cases e with
      | zero => omega
      | succ e' => exact natReprGo_ne_nil _ _ (by omega)
  | cons cell cs ih =>
    intro e h
    cases cell with
    | none => exact ih (e + 1) (Or.inr (by omega))
    | some pc => simp [emitRowGo]

/-- Every character of an emitted rank is a count digit or a piece symbol. -/
theorem emitRowGo_classes (cells : List (Option Piece)) : ∀ e, e + cells.length ≤ 8 →
    ∀ c ∈ emitRowGo cells e, (isFenDigit c || isPieceChar c) = true := by
  induction cells with
  | nil =>
    intro e hb c hc
    cases e with
    | zero => simp [emitRowGo] at hc
    | succ e' =>
      rw [show emitRowGo [] (e' + 1) = natReprF (e' + 1) from rfl,
        natReprF_single _ (by simp at hb; omega)] at hc
      simp only [List.mem_singleton] at hc
      subst hc
      rw [(fenDigitChar_facts (e' + 1) (by omega) (by simp at hb; omega)).1]
      rfl
  | cons cell cs ih =>
    intro e hb c hc
    simp only [List.length_cons] at hb
    cases cell with
    | none => exact ih (e + 1) (by omega) c hc
    | some pc =>
      rcases List.mem_append.mp hc with hm | hm
      · by_cases he : 0 < e
        · rw [if_pos he, natReprF_single e (by omega)] at hm
          simp only [List.mem_singleton] at hm
          subst hm
          rw [(fenDigitChar_facts e (by omega) (by omega)).1]
          rfl
        · rw [if_neg he] at hm
          simp at hm
      · rcases List.mem_cons.mp hm with hm | hm
        · subst hm
          rw [(symbol_class pc).2.1]
          simp
        · exact ih 0 (by omega) c hm

/-- Rank characters are neither "/" nor whitespace. -/
theorem rowClass_not_slash_ws (c : Char)
    (h : (isFenDigit c || isPieceChar c) = true) :
    (c == '/') = false ∧ isWs c = false := by
  constructor
  · rcases Bool.eq_false_or_eq_true (c == '/') with h2 | h2
    · rw [beq_iff_eq] at h2
      subst h2
      exact absurd h (by decide)
    · exact h2
  · rcases Bool.eq_false_or_eq_true (isWs c) with h2 | h2
    · exfalso
      simp only [isWs, Bool.or_eq_true, beq_iff_eq] at h2
      rcases h2 with ((h2 | h2) | h2) | h2 <;> subst h2 <;> exact absurd h (by decide)
    · exact h2

/-- Emitted ranks pass the setter's per-row character validation (the count
digit flushed before a symbol or at the end of the rank is never followed
by another digit). -/
theorem validateRow_emit (cells : List (Option Piece)) : ∀ e, e + cells.length ≤ 8 →
    validateRow (emitRowGo cells e) false = true := by
  induction cells with
  | nil =>
    intro e hb
    cases e with
    | zero => rfl
    | succ e' =>
      rw [show emitRowGo [] (e' + 1) = natReprF (e' + 1) from rfl,
        natReprF_single _ (by simp at hb; omega)]
      simp [validateRow, (fenDigitChar_facts (e' + 1) (by omega) (by simp at hb; omega)).1]
  | cons cell cs ih =>
    intro e hb
    simp only [List.length_cons] at hb
    cases cell with
    | none => exact ih (e + 1) (by omega)
    | some pc =>
      by_cases he : 0 < e
      · show validateRow ((if 0 < e then natReprF e else []) ++ Piece.symbol pc :: emitRowGo cs 0) false = true
        rw [if_pos he, natReprF_single e (by omega), List.singleton_append]
        simp only [validateRow, (fenDigitChar_facts e (by omega) (by omega)).1,
          (symbol_class pc).1, (symbol_class pc).2.1, Bool.not_false, Bool.true_and,
          if_true, Bool.false_eq_true, if_false]
        exact ih 0 (by omega)
      · show validateRow ((if 0 < e then natReprF e else []) ++ Piece.symbol pc :: emitRowGo cs 0) false = true
        rw [if_neg he, List.nil_append]
        simp only [validateRow, (symbol_class pc).1, (symbol_class pc).2.1,
          Bool.false_eq_true, if_false, if_true]
        exact ih 0 (by omega)

/-! Lemmas about the setter's board-building loop. -/

/-- The unfolding of `buildGo` on one character. -/
theorem buildGo_cons_eq (c : Char) (cs : List Char) (i : Nat) (b : List (Option Piece)) :
    buildGo (c :: cs) i b
      = if c == '/' then buildGo cs (i + 8) b
        else if isFenDigit c then buildGo cs (i + dval c) b
        else
          match pieceFromSymbol c with
          | some pc => buildGo cs (i + 1) (b.set i (some pc))
          | none => buildGo cs (i + 1) b := rfl

/-- Consuming one emitted rank advances the index by the pending count plus
the number of cells and writes exactly those cells. -/
theorem buildGo_emitRow (cells : List (Option Piece)) : ∀ e i b rest,
    e + cells.length ≤ 8 →
    buildGo (emitRowGo cells e ++ rest) i b
      = buildGo rest (i + e + cells.length) (writeCells b (i + e) cells) := by
  induction cells with
  | nil =>
    intro e i b rest hb
    cases e with
    | zero => simp [emitRowGo, writeCells]
    | succ e' =>
      rw [show emitRowGo [] (e' + 1) = natReprF (e' + 1) from rfl,
        natReprF_single _ (by simp at hb; omega), List.singleton_append, buildGo_cons_eq]
      have dfacts := fenDigitChar_facts (e' + 1) (by omega) (by simp at hb; omega)
      rw [dfacts.2.2.1]
      simp only [Bool.false_eq_true, if_false, dfacts.1, if_true, dfacts.2.2.2.2]
      simp [writeCells]
  | cons cell cs ih =>
    intro e i b rest hb
    simp only [List.length_cons] at hb
    cases cell with
    | none =>
      show buildGo (emitRowGo cs (e + 1) ++ rest) i b = _
      rw [ih (e + 1) i b rest (by omega)]
      have h1 : i + (e + 1) + cs.length = i + e + (none :: cs).length := by
        simp only [List.length_cons]
        omega
      have h2 : i + (e + 1) = i + e + 1 := by omega
      rw [h1, h2]
      rfl
    | some pc =>
      have sfacts := symbol_class pc
      by_cases he : 0 < e
      · show buildGo (((if 0 < e then natReprF e else []) ++ Piece.symbol pc :: emitRowGo cs 0)
            ++ rest) i b = _
        rw [if_pos he, natReprF_single e (by omega)]
        simp only [List.singleton_append, List.cons_append, List.nil_append]
        rw [buildGo_cons_eq]
        have dfacts := fenDigitChar_facts e (by omega) (by omega)
        rw [dfacts.2.2.1]
        simp only [Bool.false_eq_true, if_false, dfacts.1, if_true, dfacts.2.2.2.2]
        rw [buildGo_cons_eq, sfacts.2.2.1]
        simp only [Bool.false_eq_true, if_false, sfacts.1, pieceFromSymbol_symbol]
        rw [ih 0 (i + e + 1) _ rest (by omega)]
        have h1 : i + e + 1 + 0 + cs.length = i + e + (some pc :: cs).length := by
          simp only [List.length_cons]
          omega
        have h2 : i + e + 1 + 0 = i + e + 1 := by omega
        rw [h1, h2]
        rfl
      · have he0 : e = 0 := by omega
        subst he0
        show buildGo (((if 0 < 0 then natReprF 0 else []) ++ Piece.symbol pc :: emitRowGo cs 0)
            ++ rest) i b = _
        simp only [Nat.lt_irrefl, if_false, List.nil_append, List.cons_append]
        rw [buildGo_cons_eq, sfacts.2.2.1]
        simp only [Bool.false_eq_true, if_false, sfacts.1, pieceFromSymbol_symbol]
        rw [ih 0 (i + 1) _ rest (by omega)]
        have h1 : i + 1 + 0 + cs.length = i + 0 + (some pc :: cs).length := by
          simp only [List.length_cons]
          omega
        have h2 : i + 1 + 0 = i + 0 + 1 := by omega
        rw [h1, h2]
        rfl

/-- Consuming the whole emitted placement field writes the ranks at
offsets `16 * k`. -/
theorem buildGo_rows (rows : List (List (Option Piece))) : ∀ k b,
    (∀ r ∈ rows, r.length = 8) →
    buildGo (joinSep ['/'] (rows.map emitRow)) (16 * k) b = writeRows rows k b := by
  induction rows with
  | nil =>
    intro k b _
    rfl
  | cons r rs ih =>
    intro k b h
    have hr : r.length = 8 := h r (List.mem_cons_self r rs)
    cases rs with
    | nil =>
      show buildGo (emitRow r) (16 * k) b = writeRows [r] k b
      rw [show emitRow r = emitRowGo r 0 ++ [] from (List.append_nil _).symm]
      rw [buildGo_emitRow r 0 (16 * k) b [] (by omega)]
      rfl
    | cons r' rs' =>
      show buildGo (joinSep ['/'] (emitRow r :: emitRow r' :: rs'.map emitRow)) (16 * k) b
        = writeRows (r :: r' :: rs') k b
      rw [joinSep_cons₂, List.append_assoc, List.singleton_append]
      rw [show emitRow r = emitRowGo r 0 from rfl]
      rw [buildGo_emitRow r 0 (16 * k) b _ (by omega)]
      rw [buildGo_cons_eq]
      rw [show (('/' : Char) == '/') = true from rfl]
      simp only [if_true]
      have h1 : 16 * k + 0 + r.length + 8 = 16 * (k + 1) := by
        rw [hr]
        omega
      have h2 : 16 * k + 0 = 16 * k := by omega
      rw [h1, h2, ← List.map_cons]
      rw [ih (k + 1) (writeCells b (16 * k) r) fun u hu => h u (List.mem_cons_of_mem r hu)]
      rfl

/-- `writeCells` preserves the board length. -/
theorem length_writeCells (cells : List (Option Piece)) : ∀ b i,
    (writeCells b i cells).length = b.length := by
  induction cells with
  | nil => intro b i; rfl
  | cons cell cs ih =>
    intro b i
    cases cell with
    | none => exact ih b (i + 1)
    | some pc =>
      show (writeCells (b.set i (some pc)) (i + 1) cs).length = b.length
      rw [ih _ (i + 1), List.length_set]

/-- `writeCells` leaves indices outside its range untouched. -/
theorem writeCells_get?_out (cells : List (Option Piece)) : ∀ b i j,
    j < i ∨ i + cells.length ≤ j →
    (writeCells b i cells).get? j = b.get? j := by
  induction cells with
  | nil => intro b i j _; rfl
  | cons cell cs ih =>
    intro b i j h
    simp only [List.length_cons] at h
    cases cell with
    | none => exact ih b (i + 1) j (by omega)
    | some pc =>
      show (writeCells (b.set i (some pc)) (i + 1) cs).get? j = b.get? j
      rw [ih _ (i + 1) j (by omega)]
      exact List.get?_set_ne _ _ (by omega)

/-- A written occupied cell is found at its offset. -/
theorem writeCells_get?_some (cells : List (Option Piece)) : ∀ b i x pc,
    cells.get? x = some (some pc) → i + x < b.length →
    (writeCells b i cells).get? (i + x) = some (some pc) := by
  induction cells with
  | nil => intro b i x pc h _; simp at h
  | cons cell cs ih =>
    intro b i x pc h hlt
    cases x with
    | zero =>
      simp only [List.get?] at h
      injection h with h
      subst h
      show (writeCells (b.set i (some pc)) (i + 1) cs).get? (i + 0) = some (some pc)
      rw [writeCells_get?_out cs _ (i + 1) (i + 0) (Or.inl (by omega))]
      have : i + 0 = i := by omega
      rw [this]
      exact List.get?_set_eq_of_lt _ (by omega)
    | succ x' =>
      simp only [List.get?] at h
      have hx : i + (x' + 1) = (i + 1) + x' := by omega
      rw [hx]
      cases cell with
      | none => exact ih b (i + 1) x' pc h (by omega)
      | some pc' =>
        exact ih (b.set i (some pc')) (i + 1) x' pc h (by rw [List.length_set]; omega)

/-- A skipped empty cell leaves the underlying board value at its offset. -/
theorem writeCells_get?_none (cells : List (Option Piece)) : ∀ b i x,
    cells.get? x = some none →
    (writeCells b i cells).get? (i + x) = b.get? (i + x) := by
  induction cells with
  | nil => intro b i x h; simp at h
  | cons cell cs ih =>
    intro b i x h
    cases x with
    | zero =>
      simp only [List.get?] at h
      injection h with h
      cases cell with
      | none =>
        show (writeCells b (i + 1) cs).get? (i + 0) = b.get? (i + 0)
        exact writeCells_get?_out cs b (i + 1) (i + 0) (Or.inl (by omega))
      | some pc' => exact absurd h (by simp)
    | succ x' =>
      simp only [List.get?] at h
      have hx : i + (x' + 1) = (i + 1) + x' := by omega
      rw [hx]
      cases cell with
      | none => exact ih b (i + 1) x' h
      | some pc' =>
        show (writeCells (b.set i (some pc')) (i + 1) cs).get? (i + 1 + x')
          = b.get? (i + 1 + x')
        rw [ih (b.set i (some pc')) (i + 1) x' h]
        exact List.get?_set_ne _ _ (by omega)

/-- `writeRows` preserves the board length. -/
theorem length_writeRows (rows : List (List (Option Piece))) : ∀ k b,
    (writeRows rows k b).length = b.length := by
  induction rows with
  | nil => intro k b; rfl
  | cons r rs ih =>
    intro k b
    show (writeRows rs (k + 1) (writeCells b (16 * k) r)).length = b.length
    rw [ih (k + 1), length_writeCells]

/-- `writeRows` never writes below its starting offset. -/
theorem writeRows_get?_low (rows : List (List (Option Piece))) : ∀ k b j,
    j < 16 * k → (writeRows rows k b).get? j = b.get? j := by
  induction rows with
  | nil => intro k b j _; rfl
  | cons r rs ih =>
    intro k b j h
    show (writeRows rs (k + 1) (writeCells b (16 * k) r)).get? j = b.get? j
    rw [ih (k + 1) _ j (by omega)]
    exact writeCells_get?_out r b (16 * k) j (Or.inl h)

/-- `writeRows` never touches the x88 padding slots. -/
theorem writeRows_get?_pad (rows : List (List (Option Piece))) : ∀ k b j,
    (∀ r ∈ rows, r.length = 8) → 8 ≤ j % 16 →
    (writeRows rows k b).get? j = b.get? j := by
  induction rows with
  | nil => intro k b j _ _; rfl
  | cons r rs ih =>
    intro k b j hlen hj
    show (writeRows rs (k + 1) (writeCells b (16 * k) r)).get? j = b.get? j
    rw [ih (k + 1) _ j (fun u hu => hlen u (List.mem_cons_of_mem r hu)) hj]
    exact writeCells_get?_out r b (16 * k) j
      (by rw [hlen r (List.mem_cons_self r rs)]; omega)

/-- `writeRows` places an occupied cell of row `k` at its board index. -/
theorem writeRows_sub_some (rows : List (List (Option Piece))) : ∀ k0 b k x pc,
    (∀ r ∈ rows, r.length = 8) → x < 8 →
    (rows.get? k >>= fun r => r.get? x) = some (some pc) →
    16 * (k0 + k) + x < b.length →
    (writeRows rows k0 b).get? (16 * (k0 + k) + x) = some (some pc) := by
  induction rows with
  | nil => intro k0 b k x pc _ _ h _; simp at h
  | cons r rs ih =>
    intro k0 b k x pc hlen hx h hb
    cases k with
    | zero =>
      simp only [List.get?, Option.some_bind] at h
      show (writeRows rs (k0 + 1) (writeCells b (16 * k0) r)).get? (16 * (k0 + 0) + x)
        = some (some pc)
      rw [writeRows_get?_low rs (k0 + 1) _ _ (by omega)]
      have hi : 16 * (k0 + 0) + x = 16 * k0 + x := by omega
      rw [hi]
      exact writeCells_get?_some r b (16 * k0) x pc h (by omega)
    | succ k' =>
      simp only [List.get?] at h
      show (writeRows rs (k0 + 1) (writeCells b (16 * k0) r)).get? (16 * (k0 + (k' + 1)) + x)
        = some (some pc)
      have hi : 16 * (k0 + (k' + 1)) + x = 16 * ((k0 + 1) + k') + x := by ring_nf
      rw [hi]
      exact ih (k0 + 1) (writeCells b (16 * k0) r) k' x pc
        (fun u hu => hlen u (List.mem_cons_of_mem r hu)) hx h
        (by rw [length_writeCells]; omega)

/-- `writeRows` leaves the underlying value where row `k` has an empty cell. -/
theorem writeRows_sub_none (rows : List (List (Option Piece))) : ∀ k0 b k x,
    (∀ r ∈ rows, r.length = 8) → x < 8 →
    (rows.get? k >>= fun r => r.get? x) = some none →
    (writeRows rows k0 b).get? (16 * (k0 + k) + x) = b.get? (16 * (k0 + k) + x) := by
  induction rows with
  | nil => intro k0 b k x _ _ h; simp at h
  | cons r rs ih =>
    intro k0 b k x hlen hx h
    cases k with
    | zero =>
      simp only [List.get?, Option.some_bind] at h
      show (writeRows rs (k0 + 1) (writeCells b (16 * k0) r)).get? (16 * (k0 + 0) + x)
        = b.get? (16 * (k0 + 0) + x)
      rw [writeRows_get?_low rs (k0 + 1) _ _ (by omega)]
      have hi : 16 * (k0 + 0) + x = 16 * k0 + x := by omega
      rw [hi]
      exact writeCells_get?_none r b (16 * k0) x h
    | succ k' =>
      simp only [List.get?] at h
      show (writeRows rs (k0 + 1) (writeCells b (16 * k0) r)).get? (16 * (k0 + (k' + 1)) + x)
        = b.get? (16 * (k0 + (k' + 1)) + x)
      have hi : 16 * (k0 + (k' + 1)) + x = 16 * ((k0 + 1) + k') + x := by ring_nf
      rw [hi]
      rw [ih (k0 + 1) (writeCells b (16 * k0) r) k' x
        (fun u hu => hlen u (List.mem_cons_of_mem r hu)) hx h]
      exact writeCells_get?_out r b (16 * k0) _
        (by rw [hlen r (List.mem_cons_self r rs)]; right; omega)

/-- Indexing the blank 128-slot board. -/
theorem blankBoard_get? (j : Nat) (h : j < 128) : blankBoard.get? j = some none := by
  unfold blankBoard
  rw [List.get?_eq_getElem?]
  exact List.getElem?_replicate_of_lt h

/-- Parsing the emitted placement field of a well-formed board rebuilds
exactly that board. -/
theorem build_board_eq (b : List (Option Piece))
    (hlen : b.length = 128)
    (hpad : ∀ i, i < 128 → 8 ≤ i % 16 → b.getD i none = none) :
    buildGo (fenBoardChars b) 0 blankBoard = b := by
  have hrows : ∀ r ∈ (List.range 8).map fun k => rowCells b k, r.length = 8 := by
    intro r hr
    simp only [List.mem_map, List.mem_range] at hr
    obtain ⟨k, hk, rfl⟩ := hr
    simp only [rowCells, List.length_take, List.length_drop, hlen]
    omega
  have h0 : buildGo (fenBoardChars b) 0 blankBoard
      = writeRows ((List.range 8).map fun k => rowCells b k) 0 blankBoard := by
    unfold fenBoardChars
    rw [show ((List.range 8).map fun k => emitRow (rowCells b k))
        = ((List.range 8).map fun k => rowCells b k).map emitRow by
      rw [List.map_map]
      rfl]
    exact buildGo_rows _ 0 blankBoard hrows
  rw [h0]
  apply List.ext_get?
  intro j
  have hlen2 : (writeRows ((List.range 8).map fun k => rowCells b k) 0 blankBoard).length
      = 128 := by
    rw [length_writeRows]
    rfl
  by_cases hj : j < 128
  · have hbj : ∃ v, b.get? j = some v := by
      rcases hv : b.get? j with _ | v
      · rw [List.get?_eq_none] at hv
        omega
      · exact ⟨v, rfl⟩
    obtain ⟨v, hv⟩ := hbj
    by_cases hpadj : 8 ≤ j % 16
    · rw [writeRows_get?_pad _ 0 _ j hrows hpadj, blankBoard_get? j hj, hv]
      have h1 := hpad j hj hpadj
      rw [List.getD_eq_get?, hv] at h1
      have h2 : v = none := by simpa using h1
      rw [h2]
    · have hx : j % 16 < 8 := by omega
      have hkk : j / 16 < 8 := by omega
      have hrow : (((List.range 8).map fun k => rowCells b k).get? (j / 16)
          >>= fun r => r.get? (j % 16)) = b.get? j := by
        rw [List.get?_map, List.get?_range hkk]
        show ((b.drop (16 * (j / 16))).take 8).get? (j % 16) = b.get? j
        rw [List.get?_take hx, List.get?_drop]
        congr 1
        omega
      have hj16 : j = 16 * (0 + j / 16) + j % 16 := by omega
      cases v with
      | some pc =>
        rw [hj16]
        rw [writeRows_sub_some _ 0 blankBoard (j / 16) (j % 16) pc hrows hx
          (by rw [hrow]; exact hv) (by rw [show blankBoard.length = 128 from rfl]; omega)]
        rw [← hj16, hv]
      | none =>
        rw [hj16]
        rw [writeRows_sub_none _ 0 blankBoard (j / 16) (j % 16) hrows hx
          (by rw [hrow]; exact hv)]
        rw [← hj16, blankBoard_get? j hj, hv]
  · rw [List.get?_eq_none.mpr (by omega), List.get?_eq_none.mpr (by rw [hlen]; omega)]

/-! Token-level facts for the emitted FEN fields. -/

/-- Membership in a separator-join. -/
theorem mem_joinSep (sep : List Char) (ls : List (List Char)) (c : Char) :
    c ∈ joinSep sep ls → c ∈ sep ∨ ∃ l ∈ ls, c ∈ l := by
  induction ls with
  | nil => intro h; simp [joinSep] at h
  | cons t ts ih =>
    cases ts with
    | nil =>
      intro h
      exact Or.inr ⟨t, List.mem_cons_self t [], h⟩
    | cons t' ts' =>
      intro h
      rw [joinSep_cons₂] at h
      rcases List.mem_append.mp h with h1 | h1
      · rcases List.mem_append.mp h1 with h2 | h2
        · exact Or.inr ⟨t, List.mem_cons_self t _, h2⟩
        · exact Or.inl h2
      · rcases ih h1 with h2 | ⟨l, hl, hc⟩
        · exact Or.inl h2
        · exact Or.inr ⟨l, List.mem_cons_of_mem t hl, hc⟩

/-- A join headed by a nonempty token is nonempty. -/
theorem joinSep_ne_nil (sep : List Char) (t : List Char) (ts : List (List Char))
    (h : t ≠ []) : joinSep sep (t :: ts) ≠ [] := by
  cases ts with
  | nil => exact h
  | cons t' ts' =>
    rw [joinSep_cons₂]
    simp [h]

/-- The length of one emitted rank's cells. -/
theorem rowCells_length (b : List (Option Piece)) (hlen : b.length = 128) (k : Nat)
    (hk : k < 8) : (rowCells b k).length = 8 := by
  simp only [rowCells, List.length_take, List.length_drop, hlen]
  omega

/-- The emitted piece-placement field is nonempty and whitespace-free, its
rank tokens are "/"-free, and the whole field parses back into the emitted
rank tokens. -/
theorem fenBoardChars_facts (b : List (Option Piece)) (hlen : b.length = 128) :
    fenBoardChars b ≠ [] ∧ (∀ c ∈ fenBoardChars b, isWs c = false)
      ∧ splitOnChar '/' (fenBoardChars b)
          = (List.range 8).map fun k => emitRow (rowCells b k) := by
  have hclass : ∀ r ∈ (List.range 8).map fun k => emitRow (rowCells b k),
      ∀ c ∈ r, (isFenDigit c || isPieceChar c) = true := by
    intro r hr c hc
    simp only [List.mem_map, List.mem_range] at hr
    obtain ⟨k, hk, rfl⟩ := hr
    exact emitRowGo_classes (rowCells b k) 0 (by rw [rowCells_length b hlen k hk]) c hc
  refine ⟨?_, ?_, ?_⟩
  · unfold fenBoardChars
    rw [show (List.range 8).map (fun k => emitRow (rowCells b k))
        = emitRow (rowCells b 0) :: (List.map (fun k => emitRow (rowCells b k)) [1,2,3,4,5,6,7])
        from rfl]
    apply joinSep_ne_nil
    apply emitRowGo_ne_nil
    left
    intro hnil
    have := rowCells_length b hlen 0 (by omega)
    rw [hnil] at this
    simp at this
  · intro c hc
    unfold fenBoardChars at hc
    rcases mem_joinSep _ _ c hc with h1 | ⟨l, hl, hc2⟩
    · simp only [List.mem_singleton] at h1
      subst h1
      rfl
    · exact (rowClass_not_slash_ws c (hclass l hl c hc2)).2
  · unfold fenBoardChars
    apply splitOnChar_joinSep
    · intro r hr c hc
      exact (rowClass_not_slash_ws c (hclass r hr c hc)).1
    · simp

/-- The emitted rank tokens pass the setter's validation. -/
theorem validateRows_emit (b : List (Option Piece)) (hlen : b.length = 128) :
    validateRows ((List.range 8).map fun k => emitRow (rowCells b k)) = true := by
  unfold validateRows
  rw [List.all_eq_true]
  intro r hr
  simp only [List.mem_map, List.mem_range] at hr
  obtain ⟨k, hk, rfl⟩ := hr
  exact validateRow_emit (rowCells b k) 0 (by rw [rowCells_length b hlen k hk])

/-- The emitted castling token: nonempty, whitespace-free, passes the
castling regex, and its letter memberships recover the four flags. -/
theorem castlingChars_facts (c : CastRights) :
    castlingChars c ≠ [] ∧ (∀ ch ∈ castlingChars c, isWs ch = false)
      ∧ castlingFieldOk (castlingChars c) = true
      ∧ (CastRights.mk ((castlingChars c).contains 'K') ((castlingChars c).contains 'Q')
          ((castlingChars c).contains 'k') ((castlingChars c).contains 'q')) = c := by
  rcases c with ⟨a, b, c, d⟩
  cases a <;> cases b <;> cases c <;> cases d <;> exact ⟨by decide, by decide, by decide, rfl⟩

/-- Shape of the emitted en-passant token when the stored file is kept. -/
theorem epChars_keep (p : Position) (f : Nat) (hf : p.epFile = some f)
    (ht : getTheoreticalEpRight p f = true) :
    epChars p = [Char.ofNat (97 + f), if p.turn == .b then '3' else '6']
      ∧ epKeep p = true := by
  unfold epChars epKeep
  rw [hf]
  dsimp only
  rw [ht]
  exact ⟨by simp, rfl⟩

/-- Shape of the emitted en-passant token when it is suppressed. -/
theorem epChars_drop (p : Position) (h : epKeep p = false) : epChars p = ['-'] := by
  unfold epChars
  unfold epKeep at h
  cases hf : p.epFile with
  | none => rfl
  | some f =>
    rw [hf] at h
    dsimp only at h
    dsimp only
    rw [h]
    simp

/-- The kept en-passant token: whitespace-free, passes the regex, and
parses back to the file index. -/
theorem epTok_facts (f : Nat) (hf : f < 8) (rk : Char) (hrk : rk = '3' ∨ rk = '6') :
    ([Char.ofNat (97 + f), rk] ≠ [])
      ∧ (∀ ch ∈ [Char.ofNat (97 + f), rk], isWs ch = false)
      ∧ epFieldOk [Char.ofNat (97 + f), rk] = true
      ∧ epFromToken [Char.ofNat (97 + f), rk] = some f := by
  rcases hrk with rfl | rfl <;> interval_cases f <;> exact ⟨by decide, by decide, by decide, rfl⟩

/-- The suppressed en-passant token parses back to "absent". -/
theorem epFromToken_dash : epFromToken ['-'] = none := rfl

/-- The emitted en-passant token is always nonempty and whitespace-free. -/
theorem epChars_generic_facts (p : Position)
    (hep : (match p.epFile with | some f => decide (f < 8) | none => true) = true) :
    epChars p ≠ [] ∧ ∀ c ∈ epChars p, isWs c = false := by
  cases hkeep : epKeep p with
  | false =>
    rw [epChars_drop p hkeep]
    exact ⟨by decide, by decide⟩
  | true =>
    unfold epKeep at hkeep
    cases hpe : p.epFile with
    | none =>
      rw [hpe] at hkeep
      simp at hkeep
    | some f =>
      rw [hpe] at hkeep
      dsimp only at hkeep
      have hshape := (epChars_keep p f hpe hkeep).1
      rw [hshape]
      have hf : f < 8 := by
        rw [hpe] at hep
        simpa using hep
      have rkOr : (if p.turn == Col.b then '3' else '6') = '3'
          ∨ (if p.turn == Col.b then '3' else '6') = '6' := by
        by_cases hB : (p.turn == Col.b) = true
        · rw [if_pos hB]; exact Or.inl rfl
        · rw [if_neg hB]; exact Or.inr rfl
      have facts := epTok_facts f hf _ rkOr
      exact ⟨facts.1, facts.2.1⟩

/-- Splitting the emitted FEN recovers the six field tokens. -/
theorem fenChars_split (p : Position)
    (hlen : p.board.length = 128)
    (hep : (match p.epFile with | some f => decide (f < 8) | none => true) = true) :
    splitWs (fenChars p)
      = [fenBoardChars p.board, (if p.turn == Col.w then ['w'] else ['b']),
         castlingChars p.castling, epChars p, natReprF p.halfMoves, natReprF p.ply] := by
  have hb := fenBoardChars_facts p.board hlen
  have hc := castlingChars_facts p.castling
  have he := epChars_generic_facts p hep
  unfold fenChars
  apply splitWs_joinSep
  intro t ht
  simp only [List.mem_cons, List.not_mem_nil, or_false] at ht
  rcases ht with rfl | rfl | rfl | rfl | rfl | rfl
  · exact ⟨hb.1, hb.2.1⟩
  · by_cases hw : (p.turn == Col.w) = true
    · rw [if_pos hw]; exact ⟨by decide, by decide⟩
    · rw [if_neg hw]; exact ⟨by decide, by decide⟩
  · exact ⟨hc.1, hc.2.1⟩
  · exact he
  · exact ⟨natReprGo_ne_nil _ _ (by omega),
      fun c hcm => digitClass_not_ws c (natReprGo_digits _ _ (by omega) c hcm)⟩
  · exact ⟨natReprGo_ne_nil _ _ (by omega),
      fun c hcm => digitClass_not_ws c (natReprGo_digits _ _ (by omega) c hcm)⟩

/-- The FEN setter on the six emitted tokens of a well-formed position:
every validation passes and the parsed fields are the original ones, with
the en-passant field whatever the given token denotes. -/
theorem fenSetCore_emit (pb : List (Option Piece)) (pt : Col) (pcr : CastRights)
    (ph pp : Nat) (epTok : List Char)
    (hlen : pb.length = 128)
    (hpad : ∀ i, i < 128 → 8 ≤ i % 16 → pb.getD i none = none)
    (hply : 1 ≤ pp)
    (hepOk : epFieldOk epTok = true) :
    fenSetCore (fenBoardChars pb) (if pt == Col.w then ['w'] else ['b'])
        (castlingChars pcr) epTok (natReprF ph) (natReprF pp)
      = .ok ⟨pb, pt, pcr, epFromToken epTok, ph, pp⟩ := by
  have hb := fenBoardChars_facts pb hlen
  have hc := castlingChars_facts pcr
  have ht1 : ((if pt == Col.w then ['w'] else ['b']) == ['w']
      || (if pt == Col.w then ['w'] else ['b']) == ['b']) = true := by
    cases pt <;> rfl
  have ht2 : (if (if pt == Col.w then ['w'] else ['b']) == ['w'] then Col.w else Col.b)
      = pt := by
    cases pt <;> rfl
  unfold fenSetCore
  rw [hb.2.2]
  rw [if_neg (show ¬(((List.range 8).map fun k => emitRow (rowCells pb k)).length ≠ 8)
    by simp)]
  rw [validateRows_emit pb hlen, ht1, hc.2.2.1, hepOk,
    halfFieldOk_natReprF ph, plyFieldOk_natReprF pp hply]
  simp only [Bool.not_true, Bool.false_eq_true, if_false]
  rw [build_board_eq pb hlen hpad, parseNat_natReprF, parseNat_natReprF, ht2, hc.2.2.2]

/-- When the whitespace split of a FEN string yields exactly six tokens,
the setter is the core validator applied to them. -/
theorem fenSet_toks (s : String) (t0 t1 t2 t3 t4 t5 : List Char)
    (h : splitWs s.data = [t0, t1, t2, t3, t4, t5]) :
    fenSet s = fenSetCore t0 t1 t2 t3 t4 t5 := by
  unfold fenSet
  rw [h]

/-- C1: for every well-formed Position, feeding the emitted FEN back through
the setter reconstructs the position field-for-field (board, turn, castling
rights, half-move clock, full-move counter), with the en-passant file kept
exactly when a theoretically legal en-passant capture exists and normalized
to absent otherwise. -/
theorem fen_round_trip (p : Position) (h : wfPos p = true) :
    fenSet (fenGet p)
      = .ok { p with epFile := if epKeep p then p.epFile else none } := by
  unfold wfPos at h
  simp only [Bool.and_eq_true, beq_iff_eq, List.all_eq_true, List.mem_range,
    decide_eq_true_eq] at h
  obtain ⟨⟨⟨hlen, hpad0⟩, hply⟩, hepb⟩ := h
  have hpad : ∀ i, i < 128 → 8 ≤ i % 16 → p.board.getD i none = none := by
    intro i hi hm
    have h2 := hpad0 i hi
    rw [decide_eq_true hm] at h2
    simp only [Bool.not_true, Bool.false_or, Option.isNone_iff_eq_none] at h2
    exact h2
  have htoks := fenChars_split p hlen hepb
  cases hkeep : epKeep p with
  | false =>
    rw [epChars_drop p hkeep] at htoks
    rw [fenSet_toks (fenGet p) _ _ _ _ _ _ htoks]
    rw [fenSetCore_emit p.board p.turn p.castling p.halfMoves p.ply ['-']
      hlen hpad hply (by decide)]
    rfl
  | true =>
    have hkeep2 := hkeep
    unfold epKeep at hkeep2
    cases hpe : p.epFile with
    | none =>
      rw [hpe] at hkeep2
      simp at hkeep2
    | some f =>
      rw [hpe] at hkeep2
      dsimp only at hkeep2
      have hf : f < 8 := by
        rw [hpe] at hepb
        simpa using hepb
      have hshape := (epChars_keep p f hpe hkeep2).1
      rw [hshape] at htoks
      have rkOr : (if p.turn == Col.b then '3' else '6') = '3'
          ∨ (if p.turn == Col.b then '3' else '6') = '6' := by
        by_cases hB : (p.turn == Col.b) = true
        · rw [if_pos hB]; exact Or.inl rfl
        · rw [if_neg hB]; exact Or.inr rfl
      have hfacts := epTok_facts f hf _ rkOr
      rw [fenSet_toks (fenGet p) _ _ _ _ _ _ htoks]
      rw [fenSetCore_emit p.board p.turn p.castling p.halfMoves p.ply _
        hlen hpad hply hfacts.2.2.1]
      rw [hfacts.2.2.2]
      rfl

/-- C1 witness: the round trip evaluated at a concrete well-formed position
whose en-passant file has no theoretically legal capture. -/
theorem fen_round_trip_witness :
    wfPos rtWitnessPos = true
      ∧ fenSet (fenGet rtWitnessPos)
        = .ok { rtWitnessPos with
            epFile := if epKeep rtWitnessPos then rtWitnessPos.epFile else none } :=
  ⟨by decide, fen_round_trip rtWitnessPos (by decide)⟩

end Chess
